import Mathlib

/-!
Verification development for the aggregation-flattening engine of the
`elastic-responses` crate (src/lib.rs).

The JSON tree (`serde_json::Value` restricted to what the code inspects) is
embedded as the mutual inductive family `JVal`/`JList`/`JFields`; objects are
association lists standing for `BTreeMap<String, Value>` iterated in list
order (the source's BTreeMap iterates keys in sorted order, so concrete
examples below list keys sorted).  Rust panics (`expect`/`unwrap`) are
embedded as `Except.error` carrying the panic message.

`AggregationIterator::next` is a loop that mutates an explicit stack of
(name, cursor) frames; the source keeps the stack in a `Vec` pushed/popped at
the back, which is embedded as a `List Frame` whose HEAD is the top of the
stack (hence the `List.reverse` when the frames collected by `new` enter the
stack).  The loop is embedded fuel-indexed (`loopNextF`), with fuel
`stackW stack + 1`, which is proved sufficient; all definitions are plain
structural recursions, so closed instances evaluate by `rfl`.
-/

mutual

inductive JVal where
  | null
  | bool (b : Bool)
  | num (q : Rat)
  | str (s : String)
  | arr (xs : JList)
  | obj (fs : JFields)
deriving DecidableEq, Repr

inductive JList where
  | nil
  | cons (v : JVal) (tl : JList)
deriving DecidableEq, Repr

inductive JFields where
  | nil
  | cons (k : String) (v : JVal) (tl : JFields)
deriving DecidableEq, Repr

end

-- Structural size of a JSON value, the termination measure of the traversal.
mutual

def JVal.size : JVal → Nat
  | .arr xs => 1 + JList.size xs
  | .obj fs => 1 + JFields.size fs
  | _ => 1

def JList.size : JList → Nat
  | .nil => 0
  | .cons v tl => 1 + JVal.size v + JList.size tl

def JFields.size : JFields → Nat
  | .nil => 0
  | .cons _ v tl => 1 + JVal.size v + JFields.size tl

end

/-- `Value::as_object` : `Some` exactly on JSON objects. -/
def JVal.asObject : JVal → Option JFields
  | .obj fs => some fs
  | _ => none

/-- `Value::as_array` : `Some` exactly on JSON arrays. -/
def JVal.asArray : JVal → Option JList
  | .arr xs => some xs
  | _ => none

/-- `BTreeMap::get` on an object's fields (first matching key). -/
def getField : JFields → String → Option JVal
  | .nil, _ => none
  | .cons k v tl, key => if k == key then some v else getField tl key

/-- `RowData<'a> = BTreeMap<Cow<'a, str>, &'a Value>` : the accumulator row,
a key-sorted association list. -/
abbrev Row : Type := List (String × JVal)

/-- `BTreeMap::insert` on a row: replace an equal key, otherwise keep the
list sorted by inserting before the first larger key. -/
def rowInsert (k : String) (v : JVal) : Row → Row
  | [] => [(k, v)]
  | (k', v') :: r =>
    if k == k' then (k, v) :: r
    else
      match compare k k' with
      | .lt => (k, v) :: (k', v') :: r
      | _ => (k', v') :: rowInsert k v r

/-- `BTreeMap::get` on a row. -/
def rowFind : Row → String → Option JVal
  | [], _ => none
  | (k', v') :: r, k => if k' == k then some v' else rowFind r k

/-- One traversal frame: `(Option<&String>, Iter<'a, Value>)`.  The first
component is only ever populated as `Some(key)` (both push sites, lib.rs
lines 154 and 210), so it is embedded as the plain name; `rest` is the
remaining suffix of the sibling-bucket array cursor. -/
structure Frame where
  name : String
  rest : JList
deriving DecidableEq, Repr

/-- Weight of a stack of frames: every loop iteration of `next` strictly
decreases it, so it bounds the fuel. -/
def stackW : List Frame → Nat
  | [] => 0
  | fr :: rest => 1 + JList.size fr.rest + stackW rest

/-- Panic message of `n.as_object().expect(..)` at lib.rs line 204 (the
source text is the contraction of "Should not get here!"). -/
def bucketPanic : String := "Should not get here!"

/-- Panic message of `Option::unwrap` on `None` (bounds object lacking
`upper` or `lower`, lib.rs lines 237-238). -/
def unwrapPanic : String := "called Option::unwrap on a None value"

/-- Panic message of `a.0.as_object().expect(..)` at lib.rs line 147. -/
def rootPanic : String := "Not implemented, we only cater for bucket objects"

/-- `insert_value` (lib.rs lines 169-175): if the stats object has the field,
insert it under the synthesized column name `keyname_fieldname`. -/
def insert_value (fieldname : String) (json_object : JFields) (keyname : String)
    (rowdata : Row) : Row :=
  match getField json_object fieldname with
  | some v => rowInsert (keyname ++ "_" ++ fieldname) v rowdata
  | none => rowdata

/-- The eight `insert_value` calls for statistics fields (lib.rs 221-228). -/
def statInserts (c : JFields) (key : String) (row : Row) : Row :=
  insert_value "std_deviation" c key
    (insert_value "variance" c key
      (insert_value "sum_of_squares" c key
        (insert_value "sum" c key
          (insert_value "avg" c key
            (insert_value "max" c key
              (insert_value "min" c key
                (insert_value "count" c key row)))))))

/-- The two checks following the `if let Some(c) = value.as_object()` block
(lib.rs 243-252): a field literally named `key` writes the column named after
the active frame, `doc_count` writes `<active>_doc_count`. -/
def keyDocCount (active key : String) (value : JVal) (row : Row) : Row :=
  if key == "key" then rowInsert active value row
  else if key == "doc_count" then rowInsert (active ++ "_doc_count") value row
  else row

/-- Body of `for (key, value) in n.as_object()` (lib.rs 204-253) for a single
field: returns the updated row, the frame pushed for a nested `buckets`
aggregation (if any), and this field's contribution to `has_buckets`.
`Except.error` is the `unwrap` panic on a `std_deviation_bounds` object
missing `upper` or `lower`. -/
def processField (active key : String) (value : JVal) (row : Row) :
    Except String (Row × Option Frame × Bool) :=
  match value.asObject with
  | none => .ok (keyDocCount active key value row, none, false)
  | some c =>
    match getField c "buckets" with
    | some (.arr a) => .ok (row, some ⟨key, a⟩, true)
    | some _ => .ok (row, none, true)
    | none =>
      match getField c "value" with
      | some v => .ok (rowInsert key v row, none, false)
      | none =>
        let row1 := statInserts c key row
        match getField c "std_deviation_bounds" with
        | some sdb =>
          match sdb.asObject with
          | none => .ok (keyDocCount active key value row1, none, false)
          | some cv =>
            match getField cv "upper", getField cv "lower" with
            | some u, some l =>
              .ok (keyDocCount active key value
                     (rowInsert (key ++ "_std_deviation_bounds_lower") l
                       (rowInsert (key ++ "_std_deviation_bounds_upper") u row1)),
                   none, false)
            | _, _ => .error unwrapPanic
        | none => .ok (keyDocCount active key value row1, none, false)

/-- The whole field loop over a bucket object: threads the row, collects the
pushed frames in push order, and ors the `has_buckets` flags. -/
def processFields (active : String) : JFields → Row → Except String (Row × List Frame × Bool)
  | .nil, row => .ok (row, [], false)
  | .cons key value tl, row =>
    match processField active key value row with
    | .error e => .error e
    | .ok (row', fr, hb) =>
      match processFields active tl row' with
      | .error e => .error e
      | .ok (row'', frames, hb') => .ok (row'', fr.toList ++ frames, hb || hb')

/-- `child.as_object().and_then(|c| c.get("buckets")).and_then(Value::as_array)`
(lib.rs 151-153): the sibling array of a qualifying top-level aggregation. -/
def qualFrame (v : JVal) : Option JList :=
  (v.asObject.bind fun c => getField c "buckets").bind JVal.asArray

/-- The frames collected by `AggregationIterator::new` (lib.rs 150-155), in
the object's key-iteration order. -/
def topFrames : JFields → List Frame
  | .nil => []
  | .cons k v tl =>
    match qualFrame v with
    | some a => ⟨k, a⟩ :: topFrames tl
    | none => topFrames tl

/-- `struct AggregationIterator` (lib.rs 137-142), minus the reference to the
tree (never read back by `next`).  `iter_stack`'s head is the top of the
stack (the back of the source's `Vec`). -/
structure AggregationIterator where
  current_row : Option Row
  current_row_finished : Bool
  iter_stack : List Frame
deriving DecidableEq

/-- `AggregationIterator::new` (lib.rs 145-163): panics unless the root is an
object, then pushes one frame per top-level aggregation whose value is an
object with a `buckets` array. -/
def AggregationIterator.new (a : JVal) : Except String AggregationIterator :=
  match a.asObject with
  | none => .error rootPanic
  | some o => .ok ⟨none, false, (topFrames o).reverse⟩

/-- Fuel-indexed embedding of the `loop` inside `next` (lib.rs 186-273).
Returns the row to yield (`some`) or exhaustion (`none`), plus the stack left
behind.  Each iteration strictly decreases `stackW`, so fuel
`stackW stack + 1` always suffices (`loopNextF_agree` below). -/
def loopNextF : Nat → Row → List Frame → Except String (Option Row × List Frame)
  | 0, _, _ => .error "OUT OF FUEL"
  | _ + 1, _, [] => .ok (none, [])
  | w + 1, row, ⟨_, .nil⟩ :: rest => loopNextF w row rest
  | w + 1, row, ⟨nm, .cons n tail⟩ :: rest =>
    match n.asObject with
    | none => .error bucketPanic
    | some fields =>
      match processFields nm fields row with
      | .error e => .error e
      | .ok (row', pushed, hb) =>
        if hb then loopNextF w row' (pushed.reverse ++ ⟨nm, tail⟩ :: rest)
        else .ok (some row', ⟨nm, tail⟩ :: rest)

/-- The loop of `next`, with its sufficient fuel. -/
def loopNext (row : Row) (stack : List Frame) : Except String (Option Row × List Frame) :=
  loopNextF (stackW stack + 1) row stack

/-- `AggregationIterator::next` (lib.rs 180-280): create the accumulator if
absent, run the loop, yield a snapshot of the accumulator (kept in
`current_row`) or clear it and signal exhaustion. -/
def next (st : AggregationIterator) : Except String (Option Row × AggregationIterator) :=
  match loopNext (st.current_row.getD []) st.iter_stack with
  | .error e => .error e
  | .ok (none, stack') => .ok (none, { st with current_row := none, iter_stack := stack' })
  | .ok (some r, stack') => .ok (some r, { st with current_row := some r, iter_stack := stack' })

/-- Fuel-indexed exhaustive iteration: pull with `next` until exhaustion and
collect the yielded rows.  Every yield strictly decreases `stackW`, so fuel
`stackW + 1` suffices. -/
def runRowsF : Nat → AggregationIterator → Except String (List Row)
  | 0, _ => .error "OUT OF FUEL"
  | w + 1, st =>
    match next st with
    | .error e => .error e
    | .ok (none, _) => .ok []
    | .ok (some r, st') =>
      match runRowsF w st' with
      | .error e => .error e
      | .ok rows => .ok (r :: rows)

/-- All rows yielded by an iterator state. -/
def runRows (st : AggregationIterator) : Except String (List Row) :=
  runRowsF (stackW st.iter_stack + 1) st

/-- All rows of `(&response.aggs()).into_iter()` for an aggregations value. -/
def aggRows (t : JVal) : Except String (List Row) :=
  match AggregationIterator.new t with
  | .error e => .error e
  | .ok st => runRows st

/-! ### `emitGroups`: the traversal with its yielded rows collected in one pass.
`emitGroups acc stack` runs the same machine as `loopNext`/`runRows` but
returns the final accumulator together with the whole row list; a bucket with
no nested `buckets` aggregation contributes exactly one row, siblings are
consumed front-to-back, and nested frames are traversed before the cursor
advances (depth first). -/
def emitGroupsF : Nat → Row → List Frame → Except String (Row × List Row)
  | 0, _, _ => .error "OUT OF FUEL"
  | _ + 1, acc, [] => .ok (acc, [])
  | w + 1, acc, ⟨_, .nil⟩ :: rest => emitGroupsF w acc rest
  | w + 1, acc, ⟨nm, .cons n tail⟩ :: rest =>
    match n.asObject with
    | none => .error bucketPanic
    | some fields =>
      match processFields nm fields acc with
      | .error e => .error e
      | .ok (row', pushed, hb) =>
        if hb then emitGroupsF w row' (pushed.reverse ++ ⟨nm, tail⟩ :: rest)
        else
          match emitGroupsF w row' (⟨nm, tail⟩ :: rest) with
          | .error e => .error e
          | .ok (a, rows) => .ok (a, row' :: rows)

def emitGroups (acc : Row) (stack : List Frame) : Except String (Row × List Row) :=
  emitGroupsF (stackW stack + 1) acc stack

/-- Prepend a row to the row list of an `emitGroups` result. -/
def emitCons (r : Row) (x : Except String (Row × List Row)) : Except String (Row × List Row) :=
  match x with
  | .error e => .error e
  | .ok (a, rows) => .ok (a, r :: rows)

/-- Prepend a row to a `runRows` result. -/
def consRows (r : Row) (x : Except String (List Row)) : Except String (List Row) :=
  match x with
  | .error e => .error e
  | .ok rows => .ok (r :: rows)

/-! ### Well-formed aggregation trees and leaf bucket paths.
A bucket is well formed when it is an object whose field values are benign:
every value under a `buckets` key is an array of (recursively) well-formed
buckets, and a metric object (no `buckets` key, no `value` key) that carries
a `std_deviation_bounds` object has both `upper` and `lower` in it (the
source `unwrap`s those).  `leafCount` counts the leaf bucket paths through a
bucket: a bucket none of whose fields is a nested `buckets` aggregation is
itself one leaf path; otherwise its paths are those through the buckets of
its nested aggregations. -/
/-- The non-recursive part of metric-object well-formedness: an object with
no `buckets` and no `value` field but with a `std_deviation_bounds` object
must have `upper` and `lower` in it (otherwise the source panics). -/
def wfMetricChecks (c : JFields) : Bool :=
  match getField c "buckets" with
  | some _ => true
  | none =>
    match getField c "value" with
    | some _ => true
    | none =>
      match getField c "std_deviation_bounds" with
      | some sdb =>
        match sdb.asObject with
        | some cv => (getField cv "upper").isSome && (getField cv "lower").isSome
        | none => true
      | none => true

mutual

def wfBucket : JVal → Bool
  | .obj fs => wfFields fs
  | _ => false

def wfFields : JFields → Bool
  | .nil => true
  | .cons _ v tl => wfFieldVal v && wfFields tl

def wfFieldVal : JVal → Bool
  | .obj c => wfMetricFields c && wfMetricChecks c
  | _ => true

def wfMetricFields : JFields → Bool
  | .nil => true
  | .cons k v tl => (if k == "buckets" then wfArrVal v else true) && wfMetricFields tl

def wfArrVal : JVal → Bool
  | .arr a => wfJList a
  | _ => false

def wfJList : JList → Bool
  | .nil => true
  | .cons b tl => wfBucket b && wfJList tl

end

mutual

def leafCount : JVal → Nat
  | .obj fs => if (leafFields fs).2 then (leafFields fs).1 else 1
  | _ => 0

def leafFields : JFields → Nat × Bool
  | .nil => (0, false)
  | .cons _ v tl =>
    let r := leafFields tl
    match leafFieldVal v with
    | some s => (s + r.1, true)
    | none => r

def leafFieldVal : JVal → Option Nat
  | .obj c => leafMetric c
  | _ => none

def leafMetric : JFields → Option Nat
  | .nil => none
  | .cons k v tl => if k == "buckets" then some (leafArrVal v) else leafMetric tl

def leafArrVal : JVal → Nat
  | .arr a => leafList a
  | _ => 0

def leafList : JList → Nat
  | .nil => 0
  | .cons b tl => leafCount b + leafList tl

end

/-- Leaf bucket paths reachable from a stack of frames. -/
def leafStack : List Frame → Nat
  | [] => 0
  | fr :: rest => leafList fr.rest + leafStack rest

/-- Every frame of the stack carries well-formed buckets. -/
def wfStack : List Frame → Bool
  | [] => true
  | fr :: rest => wfJList fr.rest && wfStack rest

/-! ### Sequential decomposition of `emitGroups` over a stack split -/
/-- Run `emitGroups` over a second stack after a first result: thread the
final accumulator and append the rows. -/
def emitSeq : Except String (Row × List Row) → List Frame → Except String (Row × List Row)
  | .error e, _ => .error e
  | .ok p, B =>
    match emitGroups p.1 B with
    | .error e => .error e
    | .ok q => .ok (q.1, p.2 ++ q.2)

/-! ### Column names written by a single bucket field -/
/-- The eight statistics field names probed by lib.rs 221-228, in call order. -/
def statNames : List String :=
  ["count", "min", "max", "avg", "sum", "sum_of_squares", "variance", "std_deviation"]

/-- Every column name `processField active key value` can possibly write. -/
def writtenNames (active key : String) : List String :=
  key :: active :: (active ++ "_doc_count") ::
    (key ++ "_std_deviation_bounds_upper") :: (key ++ "_std_deviation_bounds_lower") ::
    statNames.map (fun s => key ++ "_" ++ s)

/-- Concatenation of field lists (used to state which map entries are dropped). -/
def JFields.append : JFields → JFields → JFields
  | .nil, ys => ys
  | .cons k v tl, ys => .cons k v (JFields.append tl ys)

/-! ### The response envelope (lib.rs 66-119) and concrete example trees -/
/-- `struct Shards` (lib.rs 66-71). -/
structure Shards where
  total : Nat
  successful : Nat
  failed : Nat

/-- `struct Hits<T>` (lib.rs 74-79) at `T = Value`. -/
structure Hits where
  total : Nat
  max_score : Nat
  hits : List JVal

/-- `struct ResponseOf<T>` (lib.rs 94-102) at `T = Value`; the wrapped
`Aggregations(Value)` newtype is represented by the `JVal` it wraps. -/
structure ResponseOf where
  took : Nat
  timed_out : Bool
  _shards : Shards
  hits : Hits
  aggregations : Option JVal
  status : Option Nat

/-- The message of the Rust `Option::unwrap` panic on `None`. -/
def unwrapNonePanic : String := "called Option::unwrap() on a None value"

/-- `ResponseOf::aggs` (lib.rs 115-118): `self.aggregations.as_ref().unwrap()`.
The `unwrap` panic on a response with no aggregations section is modelled as
`Except.error unwrapNonePanic`. -/
def ResponseOf.aggs (r : ResponseOf) : Except String JVal :=
  match r.aggregations with
  | some a => .ok a
  | none => .error unwrapNonePanic

/-- A response with hits but no aggregations section. -/
def respNoAggs : ResponseOf :=
  { took := 10, timed_out := false, _shards := ⟨1, 1, 0⟩,
    hits := ⟨0, 0, []⟩, aggregations := none, status := some 200 }

/-- A bucket object `{"doc_count": dc, "key": k}` (serde_json maps are
`BTreeMap`s, hence the sorted key order). -/
def bucketKD (k : String) (dc : Rat) : JVal :=
  .obj (.cons "doc_count" (.num dc) (.cons "key" (.str k) .nil))

/-- `{"G": {"buckets": [{"key": "a", "doc_count": 3}, {"key": "b", "doc_count": 5}]}}`. -/
def tC2 : JVal :=
  .obj (.cons "G" (.obj (.cons "buckets"
    (.arr (.cons (bucketKD "a" 3) (.cons (bucketKD "b" 5) .nil))) .nil)) .nil)

/-- `{"g": {"buckets": [0]}}`: a sibling bucket entry that is a scalar. -/
def tC4 : JVal :=
  .obj (.cons "g" (.obj (.cons "buckets" (.arr (.cons (.num 0) .nil)) .nil)) .nil)

/-- Two independent top-level bucketed aggregations `A` and `B`. -/
def fsTwo : JFields :=
  .cons "A" (.obj (.cons "buckets" (.arr (.cons (bucketKD "a1" 1) .nil)) .nil))
    (.cons "B" (.obj (.cons "buckets" (.arr (.cons (bucketKD "b1" 2) .nil)) .nil)) .nil)

/-- The iterator as constructed on `{"A": ..., "B": ...}`. -/
def stTwo : AggregationIterator := ⟨none, false, (topFrames fsTwo).reverse⟩

/-- The first row `next stTwo` yields: the row of aggregation `B`, the later
key, because the frame vector is popped from the back. -/
def rowB : Row := [("B", .str "b1"), ("B_doc_count", .num 2)]

/-- The iterator state after that first yield. -/
def stTwo2 : AggregationIterator :=
  ⟨some rowB, false, [⟨"B", .nil⟩, ⟨"A", .cons (bucketKD "a1" 1) .nil⟩]⟩

/-- The remaining rows: aggregation `A`'s row still carries the `B` columns,
because the accumulator is not cleared between rows. -/
def rowsAfter : List Row :=
  [[("A", .str "a1"), ("A_doc_count", .num 1), ("B", .str "b1"), ("B_doc_count", .num 2)]]

/-- An exhausted iterator. -/
def stEmpty : AggregationIterator := ⟨none, false, []⟩

/-- A stats object `{"avg": 42.5, "count": 3, "std_deviation_bounds": {"lower": 1, "upper": 9}}`. -/
def cStats : JFields :=
  .cons "avg" (.num (85/2))
    (.cons "count" (.num 3)
      (.cons "std_deviation_bounds"
        (.obj (.cons "lower" (.num 1) (.cons "upper" (.num 9) .nil))) .nil))

/-- The stats object as a bucket field value. -/
def valueStats : JVal := .obj cStats

/-- The row `processField "G" "price_stats" valueStats []` produces. -/
def rowStats : Row :=
  [("price_stats_avg", .num (85/2)), ("price_stats_count", .num 3),
   ("price_stats_std_deviation_bounds_lower", .num 1),
   ("price_stats_std_deviation_bounds_upper", .num 9)]

/-- Specification-side depth-first, left-to-right enumeration of the rows, one
per leaf bucket path.  A sibling ("buckets") array is consumed head first: the
head bucket contributes its rows before any row of the remaining siblings.  A
leaf bucket (one whose fields push no nested aggregation, `hb = false`)
contributes exactly the single row `row'`; a bucket with nested aggregations
contributes exactly the rows of its children (in the order its fields pushed
them), all before the remaining siblings.  The accumulator threads through in
traversal order.  Fuel-indexed like the machine; `dfsRows` below fixes the
sufficient fuel. -/
def dfsRowsF : Nat → Row → List Frame → Except String (Row × List Row)
  | 0, _, _ => .error "OUT OF FUEL"
  | _ + 1, acc, [] => .ok (acc, [])
  | w + 1, acc, ⟨_, .nil⟩ :: rest => dfsRowsF w acc rest
  | w + 1, acc, ⟨nm, .cons n tail⟩ :: rest =>
    match n.asObject with
    | none => .error bucketPanic
    | some fields =>
      match processFields nm fields acc with
      | .error e => .error e
      | .ok (row', pushed, true) =>
        match dfsRowsF w row' pushed.reverse with
        | .error e => .error e
        | .ok (acc1, rows1) =>
          match dfsRowsF w acc1 (⟨nm, tail⟩ :: rest) with
          | .error e => .error e
          | .ok (acc2, rows2) => .ok (acc2, rows1 ++ rows2)
      | .ok (row', _, false) =>
        match dfsRowsF w row' (⟨nm, tail⟩ :: rest) with
        | .error e => .error e
        | .ok (acc2, rows2) => .ok (acc2, row' :: rows2)

/-- The depth-first, left-to-right, one-row-per-leaf enumeration. -/
def dfsRows (acc : Row) (stack : List Frame) : Except String (Row × List Row) :=
  dfsRowsF (stackW stack + 1) acc stack

/-- Sequential composition of two row-emitting computations: run the second
from the accumulator the first ends with, and append the row lists. -/
def seqRows (x : Except String (Row × List Row))
    (f : Row → Except String (Row × List Row)) : Except String (Row × List Row) :=
  match x with
  | .error e => .error e
  | .ok p =>
    match f p.1 with
    | .error e => .error e
    | .ok q => .ok (q.1, p.2 ++ q.2)

theorem aggRows_empty_object : aggRows (.obj .nil) = .ok [] := rfl

/-! ### Fuel sufficiency for the loop -/
theorem asObject_some {n : JVal} {fs : JFields} (h : n.asObject = some fs) : n = .obj fs := by
  cases n <;> simp [JVal.asObject] at h
  simp [h]

/-- Induction principle for `JFields` alone (the `induction` tactic cannot
use the mutual recursor directly). -/
theorem fieldsInduction {motive : JFields → Prop} (nil : motive .nil)
    (cons : ∀ k v tl, motive tl → motive (.cons k v tl)) : ∀ fs, motive fs
  | .nil => nil
  | .cons k v tl => cons k v tl (fieldsInduction nil cons tl)

/-- Induction principle for `JList` alone. -/
theorem listInduction {motive : JList → Prop} (nil : motive .nil)
    (cons : ∀ v tl, motive tl → motive (.cons v tl)) : ∀ xs, motive xs
  | .nil => nil
  | .cons v tl => cons v tl (listInduction nil cons tl)

theorem getField_size {fs : JFields} {k : String} {v : JVal} (h : getField fs k = some v) :
    1 + JVal.size v ≤ JFields.size fs := by
  induction fs using fieldsInduction generalizing v with
  | nil => simp [getField] at h
  | cons k' v' tl ih =>
    simp only [getField] at h
    split at h
    · cases h; simp only [JFields.size]; omega
    · have := ih h; simp only [JFields.size]; omega

theorem stackW_append (a b : List Frame) : stackW (a ++ b) = stackW a + stackW b := by
  induction a with
  | nil => simp [stackW]
  | cons fr tl ih => simp [stackW, ih]; omega

theorem stackW_reverse (a : List Frame) : stackW a.reverse = stackW a := by
  induction a with
  | nil => rfl
  | cons fr tl ih => simp [stackW, List.reverse_cons, stackW_append, ih]; omega

theorem processField_bound {active key : String} {value : JVal} {row row' : Row}
    {fr : Option Frame} {hb : Bool}
    (h : processField active key value row = .ok (row', fr, hb)) :
    stackW fr.toList ≤ 1 + JVal.size value := by
  unfold processField at h
  split at h
  · cases h; simp [stackW]
  · rename_i c hc
    have hv : value = .obj c := asObject_some hc
    split at h
    · rename_i a hbk
      cases h
      have := getField_size hbk
      simp [stackW, Option.toList, JVal.size] at this ⊢
      subst hv; simp [JVal.size]; omega
    · cases h; simp [stackW]
    · split at h
      · cases h; simp [stackW]
      · split at h
        · split at h
          · cases h; simp [stackW]
          · split at h
            · cases h; simp [stackW]
            · exact absurd h (by simp)
        · cases h; simp [stackW]

theorem processFields_bound {active : String} : ∀ {fs : JFields} {row row' : Row}
    {pushed : List Frame} {hb : Bool},
    processFields active fs row = .ok (row', pushed, hb) → stackW pushed ≤ JFields.size fs := by
  intro fs
  induction fs using fieldsInduction with
  | nil => intro row row' pushed hb h; cases h; simp [stackW]
  | cons key value tl ih =>
    intro row row' pushed hb h
    simp only [processFields] at h
    cases hpf : processField active key value row with
    | error e => simp only [hpf] at h; exact absurd h (by simp)
    | ok out =>
      obtain ⟨row1, fr1, hb1⟩ := out
      simp only [hpf] at h
      cases hpfs : processFields active tl row1 with
      | error e => simp only [hpfs] at h; exact absurd h (by simp)
      | ok out2 =>
        obtain ⟨row2, frames2, hb2⟩ := out2
        simp only [hpfs] at h
        simp only [Except.ok.injEq, Prod.mk.injEq] at h
        obtain ⟨h1, h2, h3⟩ := h
        subst h2
        have b1 := processField_bound hpf
        have b2 := ih hpfs
        rw [stackW_append]
        simp only [JFields.size]
        omega

theorem dive_stackW_lt {n : JVal} {fields : JFields} {nm : String} {row row' : Row}
    {pushed : List Frame} {hb : Bool} (tail : JList) (rest : List Frame)
    (hno : n.asObject = some fields)
    (hpf : processFields nm fields row = .ok (row', pushed, hb)) :
    stackW (pushed.reverse ++ ⟨nm, tail⟩ :: rest) < stackW (⟨nm, .cons n tail⟩ :: rest) := by
  have hb' := processFields_bound hpf
  have hn : n = .obj fields := asObject_some hno
  rw [stackW_append, stackW_reverse]
  subst hn
  simp [stackW, JList.size, JVal.size]
  omega

theorem loopNextF_agree : ∀ (u v : Nat) (row : Row) (stack : List Frame),
    stackW stack < u → stackW stack < v → loopNextF u row stack = loopNextF v row stack := by
  intro u
  induction u with
  | zero => intro v row stack hu; omega
  | succ u ih =>
    intro v row stack hu hv
    cases v with
    | zero => omega
    | succ v =>
      cases stack with
      | nil => rfl
      | cons fr rest =>
        obtain ⟨nm, cur⟩ := fr
        cases cur with
        | nil =>
          simp only [loopNextF]
          refine ih v row rest ?_ ?_ <;> simp [stackW, JList.size] at hu hv <;> omega
        | cons n tail =>
          simp only [loopNextF]
          cases n with
          | null => rfl
          | bool b => rfl
          | num q => rfl
          | str s => rfl
          | arr xs => rfl
          | obj fields =>
            simp only [JVal.asObject]
            cases hpf : processFields nm fields row with
            | error e => rfl
            | ok out =>
              obtain ⟨row', pushed, hb⟩ := out
              cases hb with
              | false => rfl
              | true =>
                have hlt := dive_stackW_lt (n := .obj fields) tail rest rfl hpf
                exact ih v row' _ (by omega) (by omega)

theorem loopNextF_eq_loopNext (w : Nat) (row : Row) (stack : List Frame)
    (h : stackW stack < w) : loopNextF w row stack = loopNext row stack :=
  loopNextF_agree w (stackW stack + 1) row stack h (Nat.lt_succ_self _)

/-! ### Unfolding equations for `loopNext` -/
theorem loopNext_nil (row : Row) : loopNext row [] = .ok (none, []) := rfl

theorem loopNext_skip (row : Row) (nm : String) (rest : List Frame) :
    loopNext row (⟨nm, .nil⟩ :: rest) = loopNext row rest := by
  unfold loopNext
  rw [show stackW (⟨nm, .nil⟩ :: rest) + 1 = (1 + JList.size .nil + stackW rest) + 1 from rfl]
  simp only [loopNextF]
  exact loopNextF_eq_loopNext _ _ _ (by simp only [JList.size]; omega)

theorem loopNext_noobj {n : JVal} (row : Row) (nm : String) (tail : JList) (rest : List Frame)
    (hno : n.asObject = none) :
    loopNext row (⟨nm, .cons n tail⟩ :: rest) = .error bucketPanic := by
  unfold loopNext
  rw [show stackW (⟨nm, .cons n tail⟩ :: rest) + 1
        = (1 + (1 + JVal.size n + JList.size tail) + stackW rest) + 1 from rfl]
  simp only [loopNextF, hno]

theorem loopNext_perr {n : JVal} {fields : JFields} {e : String} (row : Row) (nm : String)
    (tail : JList) (rest : List Frame)
    (hno : n.asObject = some fields) (hpf : processFields nm fields row = .error e) :
    loopNext row (⟨nm, .cons n tail⟩ :: rest) = .error e := by
  unfold loopNext
  rw [show stackW (⟨nm, .cons n tail⟩ :: rest) + 1
        = (1 + (1 + JVal.size n + JList.size tail) + stackW rest) + 1 from rfl]
  simp only [loopNextF, hno, hpf]

theorem loopNext_dive {n : JVal} {fields : JFields} {row row' : Row} {pushed : List Frame}
    (nm : String) (tail : JList) (rest : List Frame)
    (hno : n.asObject = some fields)
    (hpf : processFields nm fields row = .ok (row', pushed, true)) :
    loopNext row (⟨nm, .cons n tail⟩ :: rest)
      = loopNext row' (pushed.reverse ++ ⟨nm, tail⟩ :: rest) := by
  unfold loopNext
  rw [show stackW (⟨nm, .cons n tail⟩ :: rest) + 1
        = (1 + (1 + JVal.size n + JList.size tail) + stackW rest) + 1 from rfl]
  simp only [loopNextF, hno, hpf, if_pos]
  refine loopNextF_eq_loopNext _ _ _ ?_
  exact dive_stackW_lt tail rest hno hpf

theorem loopNext_yield {n : JVal} {fields : JFields} {row row' : Row} {pushed : List Frame}
    (nm : String) (tail : JList) (rest : List Frame)
    (hno : n.asObject = some fields)
    (hpf : processFields nm fields row = .ok (row', pushed, false)) :
    loopNext row (⟨nm, .cons n tail⟩ :: rest) = .ok (some row', ⟨nm, tail⟩ :: rest) := by
  unfold loopNext
  rw [show stackW (⟨nm, .cons n tail⟩ :: rest) + 1
        = (1 + (1 + JVal.size n + JList.size tail) + stackW rest) + 1 from rfl]
  simp only [loopNextF, hno, hpf]
  rfl

/-! ### Shape of `loopNext` results -/
theorem loopNext_cases : ∀ (w : Nat) (stack : List Frame), stackW stack < w →
    ∀ (row : Row) (res : Option Row × List Frame), loopNext row stack = .ok res →
    (res.1 = none → res.2 = []) ∧ (res.1.isSome → stackW res.2 < stackW stack) := by
  intro w
  induction w with
  | zero => intro stack h; omega
  | succ w ih =>
    intro stack hlt row res h
    cases stack with
    | nil =>
      rw [loopNext_nil] at h
      cases h
      exact ⟨fun _ => rfl, by simp⟩
    | cons fr rest =>
      obtain ⟨nm, cur⟩ := fr
      cases cur with
      | nil =>
        rw [loopNext_skip] at h
        have hR : stackW rest < w := by simp only [stackW, JList.size] at hlt ⊢; omega
        obtain ⟨h1, h2⟩ := ih rest hR row res h
        refine ⟨h1, fun hs => ?_⟩
        have := h2 hs
        simp only [stackW, JList.size]
        omega
      | cons n tail =>
        cases n with
        | null =>
          rw [loopNext_noobj (n := .null) row nm tail rest rfl] at h
          exact absurd h (by simp)
        | bool b =>
          rw [loopNext_noobj (n := .bool b) row nm tail rest rfl] at h
          exact absurd h (by simp)
        | num q =>
          rw [loopNext_noobj (n := .num q) row nm tail rest rfl] at h
          exact absurd h (by simp)
        | str s =>
          rw [loopNext_noobj (n := .str s) row nm tail rest rfl] at h
          exact absurd h (by simp)
        | arr xs =>
          rw [loopNext_noobj (n := .arr xs) row nm tail rest rfl] at h
          exact absurd h (by simp)
        | obj fields =>
          cases hpf : processFields nm fields row with
          | error e =>
            rw [loopNext_perr (n := .obj fields) row nm tail rest rfl hpf] at h
            exact absurd h (by simp)
          | ok out =>
            obtain ⟨row', pushed, hb⟩ := out
            cases hb with
            | true =>
              rw [loopNext_dive (n := .obj fields) nm tail rest rfl hpf] at h
              have hd := dive_stackW_lt (n := .obj fields) tail rest rfl hpf
              have hR : stackW (pushed.reverse ++ ⟨nm, tail⟩ :: rest) < w := by omega
              obtain ⟨h1, h2⟩ := ih _ hR row' res h
              exact ⟨h1, fun hs => lt_trans (h2 hs) hd⟩
            | false =>
              rw [loopNext_yield (n := .obj fields) nm tail rest rfl hpf] at h
              cases h
              refine ⟨by simp, fun _ => ?_⟩
              simp only [stackW, JList.size, JVal.size]
              omega

/-! ### Inversion of `next` -/
theorem next_yield {st st' : AggregationIterator} {r : Row} (h : next st = .ok (some r, st')) :
    loopNext (st.current_row.getD []) st.iter_stack = .ok (some r, st'.iter_stack) ∧
    st'.current_row = some r ∧
    st'.current_row_finished = st.current_row_finished ∧
    stackW st'.iter_stack < stackW st.iter_stack := by
  unfold next at h
  cases hl : loopNext (st.current_row.getD []) st.iter_stack with
  | error e => simp only [hl] at h; exact absurd h (by simp)
  | ok res =>
    obtain ⟨ro, stack'⟩ := res
    simp only [hl] at h
    cases ro with
    | none => simp at h
    | some r0 =>
      simp only [Except.ok.injEq, Prod.mk.injEq, Option.some.injEq] at h
      obtain ⟨hr, hst⟩ := h
      subst hr
      subst hst
      refine ⟨rfl, rfl, rfl, ?_⟩
      exact (loopNext_cases (stackW st.iter_stack + 1) st.iter_stack
        (Nat.lt_succ_self _) _ _ hl).2 (by simp)

theorem next_done {st st' : AggregationIterator} (h : next st = .ok (none, st')) :
    st' = { st with current_row := none, iter_stack := [] } := by
  unfold next at h
  cases hl : loopNext (st.current_row.getD []) st.iter_stack with
  | error e => simp only [hl] at h; exact absurd h (by simp)
  | ok res =>
    obtain ⟨ro, stack'⟩ := res
    simp only [hl] at h
    cases ro with
    | some r0 => simp at h
    | none =>
      simp only [Except.ok.injEq, Prod.mk.injEq] at h
      obtain ⟨-, hst⟩ := h
      have hnil : stack' = [] :=
        (loopNext_cases (stackW st.iter_stack + 1) st.iter_stack
          (Nat.lt_succ_self _) _ _ hl).1 rfl
      rw [← hst, hnil]

/-! ### Unfolding equations for `runRows` -/
theorem runRowsF_agree : ∀ (u v : Nat) (st : AggregationIterator),
    stackW st.iter_stack < u → stackW st.iter_stack < v → runRowsF u st = runRowsF v st := by
  intro u
  induction u with
  | zero => intro v st hu; omega
  | succ u ih =>
    intro v st hu hv
    cases v with
    | zero => omega
    | succ v =>
      cases hn : next st with
      | error e => simp only [runRowsF, hn]
      | ok res =>
        obtain ⟨ro, st'⟩ := res
        cases ro with
        | none => simp only [runRowsF, hn]
        | some r =>
          simp only [runRowsF, hn]
          have hlt := (next_yield hn).2.2.2
          rw [ih v st' (by omega) (by omega)]

theorem runRows_err {st : AggregationIterator} {e : String} (h : next st = .error e) :
    runRows st = .error e := by
  unfold runRows
  simp only [runRowsF, h]

theorem runRows_done {st st' : AggregationIterator} (h : next st = .ok (none, st')) :
    runRows st = .ok [] := by
  unfold runRows
  simp only [runRowsF, h]

theorem runRows_yield {st st' : AggregationIterator} {r : Row} (h : next st = .ok (some r, st')) :
    runRows st =
      match runRows st' with
      | .error e => .error e
      | .ok rows => .ok (r :: rows) := by
  have hagree : runRowsF (stackW st.iter_stack) st' = runRows st' :=
    runRowsF_agree _ _ st' (next_yield h).2.2.2 (Nat.lt_succ_self _)
  have step : runRows st =
      match runRowsF (stackW st.iter_stack) st' with
      | .error e => .error e
      | .ok rows => .ok (r :: rows) := by
    unfold runRows
    simp only [runRowsF, h]
  rw [step, hagree]

theorem JVal.size_pos (v : JVal) : 1 ≤ JVal.size v := by
  cases v <;> simp only [JVal.size] <;> omega

theorem emitGroupsF_agree : ∀ (u v : Nat) (acc : Row) (stack : List Frame),
    stackW stack < u → stackW stack < v → emitGroupsF u acc stack = emitGroupsF v acc stack := by
  intro u
  induction u with
  | zero => intro v acc stack hu; omega
  | succ u ih =>
    intro v acc stack hu hv
    cases v with
    | zero => omega
    | succ v =>
      cases stack with
      | nil => rfl
      | cons fr rest =>
        obtain ⟨nm, cur⟩ := fr
        cases cur with
        | nil =>
          simp only [emitGroupsF]
          refine ih v acc rest ?_ ?_
          · simp only [stackW, JList.size] at hu; omega
          · simp only [stackW, JList.size] at hv; omega
        | cons n tail =>
          simp only [emitGroupsF]
          cases n with
          | null => rfl
          | bool b => rfl
          | num q => rfl
          | str s => rfl
          | arr xs => rfl
          | obj fields =>
            simp only [JVal.asObject]
            cases hpf : processFields nm fields acc with
            | error e => rfl
            | ok out =>
              obtain ⟨row', pushed, hb⟩ := out
              cases hb with
              | true =>
                have hlt := dive_stackW_lt (n := .obj fields) tail rest rfl hpf
                exact ih v row' _ (by omega) (by omega)
              | false =>
                show ((match emitGroupsF u row' (⟨nm, tail⟩ :: rest) with
                      | Except.error e => Except.error e
                      | Except.ok (a, rows) => Except.ok (a, row' :: rows))
                        : Except String (Row × List Row))
                    = ((match emitGroupsF v row' (⟨nm, tail⟩ :: rest) with
                      | Except.error e => Except.error e
                      | Except.ok (a, rows) => Except.ok (a, row' :: rows))
                        : Except String (Row × List Row))
                have h1 : stackW (⟨nm, tail⟩ :: rest) < u := by
                  simp only [stackW, JList.size, JVal.size] at hu ⊢; omega
                have h2 : stackW (⟨nm, tail⟩ :: rest) < v := by
                  simp only [stackW, JList.size, JVal.size] at hv ⊢; omega
                rw [ih v row' _ h1 h2]

theorem emitGroupsF_eq_emitGroups (w : Nat) (acc : Row) (stack : List Frame)
    (h : stackW stack < w) : emitGroupsF w acc stack = emitGroups acc stack :=
  emitGroupsF_agree w (stackW stack + 1) acc stack h (Nat.lt_succ_self _)

theorem emit_nil (acc : Row) : emitGroups acc [] = .ok (acc, []) := rfl

theorem emit_skip (acc : Row) (nm : String) (rest : List Frame) :
    emitGroups acc (⟨nm, .nil⟩ :: rest) = emitGroups acc rest := by
  unfold emitGroups
  rw [show stackW (⟨nm, .nil⟩ :: rest) + 1 = (1 + JList.size .nil + stackW rest) + 1 from rfl]
  simp only [emitGroupsF]
  exact emitGroupsF_eq_emitGroups _ _ _ (by simp only [JList.size]; omega)

theorem emit_noobj {n : JVal} (acc : Row) (nm : String) (tail : JList) (rest : List Frame)
    (hno : n.asObject = none) :
    emitGroups acc (⟨nm, .cons n tail⟩ :: rest) = .error bucketPanic := by
  unfold emitGroups
  rw [show stackW (⟨nm, .cons n tail⟩ :: rest) + 1
        = (1 + (1 + JVal.size n + JList.size tail) + stackW rest) + 1 from rfl]
  simp only [emitGroupsF, hno]

theorem emit_perr {n : JVal} {fields : JFields} {e : String} (acc : Row) (nm : String)
    (tail : JList) (rest : List Frame)
    (hno : n.asObject = some fields) (hpf : processFields nm fields acc = .error e) :
    emitGroups acc (⟨nm, .cons n tail⟩ :: rest) = .error e := by
  unfold emitGroups
  rw [show stackW (⟨nm, .cons n tail⟩ :: rest) + 1
        = (1 + (1 + JVal.size n + JList.size tail) + stackW rest) + 1 from rfl]
  simp only [emitGroupsF, hno, hpf]

theorem emit_dive {n : JVal} {fields : JFields} {acc row' : Row} {pushed : List Frame}
    (nm : String) (tail : JList) (rest : List Frame)
    (hno : n.asObject = some fields)
    (hpf : processFields nm fields acc = .ok (row', pushed, true)) :
    emitGroups acc (⟨nm, .cons n tail⟩ :: rest)
      = emitGroups row' (pushed.reverse ++ ⟨nm, tail⟩ :: rest) := by
  unfold emitGroups
  rw [show stackW (⟨nm, .cons n tail⟩ :: rest) + 1
        = (1 + (1 + JVal.size n + JList.size tail) + stackW rest) + 1 from rfl]
  simp only [emitGroupsF, hno, hpf, if_pos]
  refine emitGroupsF_eq_emitGroups _ _ _ ?_
  exact dive_stackW_lt tail rest hno hpf

theorem emit_yield {n : JVal} {fields : JFields} {acc row' : Row} {pushed : List Frame}
    (nm : String) (tail : JList) (rest : List Frame)
    (hno : n.asObject = some fields)
    (hpf : processFields nm fields acc = .ok (row', pushed, false)) :
    emitGroups acc (⟨nm, .cons n tail⟩ :: rest) =
      match emitGroups row' (⟨nm, tail⟩ :: rest) with
      | .error e => .error e
      | .ok (a, rows) => .ok (a, row' :: rows) := by
  have hsz : 1 ≤ JVal.size n := JVal.size_pos n
  have hagree : emitGroupsF (1 + (1 + JVal.size n + JList.size tail) + stackW rest) row'
      (⟨nm, tail⟩ :: rest) = emitGroups row' (⟨nm, tail⟩ :: rest) := by
    refine emitGroupsF_eq_emitGroups _ _ _ ?_
    simp only [stackW, JList.size]
    omega
  have step : emitGroups acc (⟨nm, .cons n tail⟩ :: rest) =
      match emitGroupsF (1 + (1 + JVal.size n + JList.size tail) + stackW rest) row'
          (⟨nm, tail⟩ :: rest) with
      | .error e => .error e
      | .ok (a, rows) => .ok (a, row' :: rows) := by
    unfold emitGroups
    rw [show stackW (⟨nm, .cons n tail⟩ :: rest) + 1
          = (1 + (1 + JVal.size n + JList.size tail) + stackW rest) + 1 from rfl]
    simp only [emitGroupsF, hno, hpf]
    rfl
  rw [step, hagree]

theorem runRows_yield2 {st st' : AggregationIterator} {r : Row}
    (h : next st = .ok (some r, st')) : runRows st = consRows r (runRows st') := by
  rw [runRows_yield h]
  cases runRows st' with
  | error e => rfl
  | ok rows => rfl

theorem emit_yield2 {n : JVal} {fields : JFields} {acc row' : Row} {pushed : List Frame}
    (nm : String) (tail : JList) (rest : List Frame)
    (hno : n.asObject = some fields)
    (hpf : processFields nm fields acc = .ok (row', pushed, false)) :
    emitGroups acc (⟨nm, .cons n tail⟩ :: rest)
      = emitCons row' (emitGroups row' (⟨nm, tail⟩ :: rest)) := by
  rw [emit_yield nm tail rest hno hpf]
  cases emitGroups row' (⟨nm, tail⟩ :: rest) with
  | error e => rfl
  | ok p => obtain ⟨a, rows⟩ := p; rfl

theorem next_err {st : AggregationIterator} {e : String} (h : next st = .error e) :
    loopNext (st.current_row.getD []) st.iter_stack = .error e := by
  unfold next at h
  cases hl : loopNext (st.current_row.getD []) st.iter_stack with
  | error e0 =>
    simp only [hl] at h
    injection h with he
    rw [he]
  | ok res =>
    obtain ⟨ro, st2⟩ := res
    simp only [hl] at h
    cases ro with
    | none => simp at h
    | some r0 => simp at h

theorem next_done_loop {st st' : AggregationIterator} (h : next st = .ok (none, st')) :
    loopNext (st.current_row.getD []) st.iter_stack = .ok (none, []) := by
  unfold next at h
  cases hl : loopNext (st.current_row.getD []) st.iter_stack with
  | error e => simp only [hl] at h; exact absurd h (by simp)
  | ok res =>
    obtain ⟨ro, stack'⟩ := res
    simp only [hl] at h
    cases ro with
    | some r0 => simp at h
    | none =>
      have hnil : stack' = [] :=
        (loopNext_cases (stackW st.iter_stack + 1) st.iter_stack
          (Nat.lt_succ_self _) _ _ hl).1 rfl
      rw [hnil]

/-! ### `runRows` refines `emitGroups` -/
theorem emit_matches_error {stack : List Frame} {row : Row} {e0 : String}
    (hl : loopNext row stack = .error e0) (he : emitGroups row stack = .error e0) :
    (∀ e, loopNext row stack = .error e → emitGroups row stack = .error e) ∧
    (∀ stack2, loopNext row stack = .ok (none, stack2) →
      ∃ a, emitGroups row stack = .ok (a, [])) ∧
    (∀ r stack2, loopNext row stack = .ok (some r, stack2) →
      emitGroups row stack = emitCons r (emitGroups r stack2)) := by
  refine ⟨?_, ?_, ?_⟩
  · intro e h
    rw [hl] at h
    injection h with h
    rw [he, h]
  · intro stack2 h
    rw [hl] at h
    exact absurd h (by simp)
  · intro r stack2 h
    rw [hl] at h
    exact absurd h (by simp)

theorem loopNext_emit : ∀ (w : Nat) (stack : List Frame), stackW stack < w → ∀ (row : Row),
    (∀ e, loopNext row stack = .error e → emitGroups row stack = .error e) ∧
    (∀ stack2, loopNext row stack = .ok (none, stack2) →
      ∃ a, emitGroups row stack = .ok (a, [])) ∧
    (∀ r stack2, loopNext row stack = .ok (some r, stack2) →
      emitGroups row stack = emitCons r (emitGroups r stack2)) := by
  intro w
  induction w with
  | zero => intro stack h; omega
  | succ w ih =>
    intro stack hlt row
    cases stack with
    | nil =>
      refine ⟨?_, ?_, ?_⟩
      · intro e h; rw [loopNext_nil] at h; exact absurd h (by simp)
      · intro stack2 h; exact ⟨row, emit_nil row⟩
      · intro r stack2 h; rw [loopNext_nil] at h; simp at h
    | cons fr rest =>
      obtain ⟨nm, cur⟩ := fr
      cases cur with
      | nil =>
        have hR : stackW rest < w := by simp only [stackW, JList.size] at hlt; omega
        obtain ⟨ih1, ih2, ih3⟩ := ih rest hR row
        refine ⟨?_, ?_, ?_⟩
        · intro e h; rw [loopNext_skip] at h; rw [emit_skip]; exact ih1 e h
        · intro stack2 h; rw [loopNext_skip] at h; rw [emit_skip]; exact ih2 stack2 h
        · intro r stack2 h; rw [loopNext_skip] at h; rw [emit_skip]; exact ih3 r stack2 h
      | cons n tail =>
        cases n with
        | null =>
          exact emit_matches_error (loopNext_noobj (n := .null) row nm tail rest rfl)
            (emit_noobj (n := .null) row nm tail rest rfl)
        | bool b =>
          exact emit_matches_error (loopNext_noobj (n := .bool b) row nm tail rest rfl)
            (emit_noobj (n := .bool b) row nm tail rest rfl)
        | num q =>
          exact emit_matches_error (loopNext_noobj (n := .num q) row nm tail rest rfl)
            (emit_noobj (n := .num q) row nm tail rest rfl)
        | str s =>
          exact emit_matches_error (loopNext_noobj (n := .str s) row nm tail rest rfl)
            (emit_noobj (n := .str s) row nm tail rest rfl)
        | arr xs =>
          exact emit_matches_error (loopNext_noobj (n := .arr xs) row nm tail rest rfl)
            (emit_noobj (n := .arr xs) row nm tail rest rfl)
        | obj fields =>
          cases hpf : processFields nm fields row with
          | error e0 =>
            exact emit_matches_error
              (loopNext_perr (n := .obj fields) row nm tail rest rfl hpf)
              (emit_perr (n := .obj fields) row nm tail rest rfl hpf)
          | ok out =>
            obtain ⟨row', pushed, hb⟩ := out
            cases hb with
            | true =>
              have hd := dive_stackW_lt (n := .obj fields) tail rest rfl hpf
              have hR : stackW (pushed.reverse ++ ⟨nm, tail⟩ :: rest) < w := by omega
              obtain ⟨ih1, ih2, ih3⟩ := ih _ hR row'
              refine ⟨?_, ?_, ?_⟩
              · intro e h
                rw [loopNext_dive (n := .obj fields) nm tail rest rfl hpf] at h
                rw [emit_dive (n := .obj fields) nm tail rest rfl hpf]
                exact ih1 e h
              · intro stack2 h
                rw [loopNext_dive (n := .obj fields) nm tail rest rfl hpf] at h
                rw [emit_dive (n := .obj fields) nm tail rest rfl hpf]
                exact ih2 stack2 h
              · intro r stack2 h
                rw [loopNext_dive (n := .obj fields) nm tail rest rfl hpf] at h
                rw [emit_dive (n := .obj fields) nm tail rest rfl hpf]
                exact ih3 r stack2 h
            | false =>
              refine ⟨?_, ?_, ?_⟩
              · intro e h
                rw [loopNext_yield (n := .obj fields) nm tail rest rfl hpf] at h
                exact absurd h (by simp)
              · intro stack2 h
                rw [loopNext_yield (n := .obj fields) nm tail rest rfl hpf] at h
                simp at h
              · intro r stack2 h
                rw [loopNext_yield (n := .obj fields) nm tail rest rfl hpf] at h
                simp only [Except.ok.injEq, Prod.mk.injEq, Option.some.injEq] at h
                obtain ⟨hr, hstk⟩ := h
                subst hr
                subst hstk
                exact emit_yield2 (n := .obj fields) nm tail rest rfl hpf

theorem runRows_emit : ∀ (w : Nat) (st : AggregationIterator), stackW st.iter_stack < w →
    runRows st = (emitGroups (st.current_row.getD []) st.iter_stack).map Prod.snd := by
  intro w
  induction w with
  | zero => intro st h; omega
  | succ w ih =>
    intro st hlt
    cases hn : next st with
    | error e =>
      rw [runRows_err hn]
      rw [(loopNext_emit (stackW st.iter_stack + 1) st.iter_stack
        (Nat.lt_succ_self _) _).1 e (next_err hn)]
      rfl
    | ok res =>
      obtain ⟨ro, st'⟩ := res
      cases ro with
      | none =>
        rw [runRows_done hn]
        obtain ⟨a, ha⟩ := (loopNext_emit (stackW st.iter_stack + 1) st.iter_stack
          (Nat.lt_succ_self _) _).2.1 [] (next_done_loop hn)
        rw [ha]
        rfl
      | some r =>
        obtain ⟨hl, hcr, -, hwlt⟩ := next_yield hn
        rw [runRows_yield2 hn]
        rw [(loopNext_emit (stackW st.iter_stack + 1) st.iter_stack
          (Nat.lt_succ_self _) _).2.2 r st'.iter_stack hl]
        have ihapp := ih st' (by omega)
        rw [hcr] at ihapp
        simp only [Option.getD] at ihapp
        rw [ihapp]
        cases hE : emitGroups r st'.iter_stack with
        | error e => rfl
        | ok p => obtain ⟨a, rows⟩ := p; rfl

theorem wfArrVal_arr {b : JVal} (h : wfArrVal b = true) :
    ∃ a, b = .arr a ∧ wfJList a = true := by
  cases b with
  | arr a => exact ⟨a, rfl, h⟩
  | null => simp [wfArrVal] at h
  | bool x => simp [wfArrVal] at h
  | num x => simp [wfArrVal] at h
  | str x => simp [wfArrVal] at h
  | obj x => simp [wfArrVal] at h

theorem wfMetricFields_buckets {c : JFields} (h : wfMetricFields c = true) :
    ∀ {b : JVal}, getField c "buckets" = some b → wfArrVal b = true := by
  induction c using fieldsInduction with
  | nil => intro b hb; simp [getField] at hb
  | cons k v tl ih =>
    intro b hb
    rw [show wfMetricFields (.cons k v tl)
        = ((if k == "buckets" then wfArrVal v else true) && wfMetricFields tl) from rfl] at h
    rw [show getField (.cons k v tl) "buckets"
        = (if k == "buckets" then some v else getField tl "buckets") from rfl] at hb
    rw [Bool.and_eq_true] at h
    cases hk : (k == "buckets") with
    | true =>
      rw [hk] at h hb
      simp only [if_true] at h hb
      cases hb
      exact h.1
    | false =>
      rw [hk] at h hb
      simp only [Bool.false_eq_true, if_false] at h hb
      exact ih h.2 hb

theorem leafMetric_spec (c : JFields) :
    leafMetric c = (getField c "buckets").map leafArrVal := by
  induction c using fieldsInduction with
  | nil => rfl
  | cons k v tl ih =>
    rw [show leafMetric (.cons k v tl)
        = (if k == "buckets" then some (leafArrVal v) else leafMetric tl) from rfl]
    rw [show getField (.cons k v tl) "buckets"
        = (if k == "buckets" then some v else getField tl "buckets") from rfl]
    cases hk : (k == "buckets") with
    | true => simp only [if_true]; rfl
    | false =>
      simp only [Bool.false_eq_true, if_false]
      exact ih

theorem leafStack_append (a b : List Frame) :
    leafStack (a ++ b) = leafStack a + leafStack b := by
  induction a with
  | nil => simp [leafStack]
  | cons fr tl ih => simp [leafStack, ih]; omega

theorem leafStack_reverse (a : List Frame) : leafStack a.reverse = leafStack a := by
  induction a with
  | nil => rfl
  | cons fr tl ih => simp [leafStack, List.reverse_cons, leafStack_append, ih]; omega

theorem wfStack_append (a b : List Frame) :
    wfStack (a ++ b) = (wfStack a && wfStack b) := by
  induction a with
  | nil => simp [wfStack]
  | cons fr tl ih => simp [wfStack, ih, Bool.and_assoc]

theorem wfStack_reverse (a : List Frame) : wfStack a.reverse = wfStack a := by
  induction a with
  | nil => rfl
  | cons fr tl ih =>
    simp [wfStack, List.reverse_cons, wfStack_append, ih, Bool.and_comm]

theorem emitSeq_emitCons (r : Row) (x : Except String (Row × List Row)) (B : List Frame) :
    emitSeq (emitCons r x) B = emitCons r (emitSeq x B) := by
  cases x with
  | error e => rfl
  | ok p =>
    obtain ⟨a, rows⟩ := p
    simp only [emitSeq, emitCons]
    cases emitGroups a B with
    | error e => rfl
    | ok q => rfl

theorem emit_append : ∀ (w : Nat) (A : List Frame), stackW A < w → ∀ (acc : Row) (B : List Frame),
    emitGroups acc (A ++ B) = emitSeq (emitGroups acc A) B := by
  intro w
  induction w with
  | zero => intro A h; omega
  | succ w ih =>
    intro A hlt acc B
    cases A with
    | nil =>
      simp only [List.nil_append]
      rw [emit_nil]
      simp only [emitSeq]
      cases hE : emitGroups acc B with
      | error e => rfl
      | ok q => simp
    | cons fr rest =>
      obtain ⟨nm, cur⟩ := fr
      cases cur with
      | nil =>
        rw [show (⟨nm, JList.nil⟩ :: rest) ++ B = ⟨nm, JList.nil⟩ :: (rest ++ B) from rfl]
        rw [emit_skip, emit_skip]
        exact ih rest (by simp only [stackW, JList.size] at hlt; omega) acc B
      | cons n tail =>
        rw [show (⟨nm, JList.cons n tail⟩ :: rest) ++ B
            = ⟨nm, JList.cons n tail⟩ :: (rest ++ B) from rfl]
        cases n with
        | null =>
          rw [emit_noobj (n := .null) acc nm tail (rest ++ B) rfl,
              emit_noobj (n := .null) acc nm tail rest rfl]
          rfl
        | bool b =>
          rw [emit_noobj (n := .bool b) acc nm tail (rest ++ B) rfl,
              emit_noobj (n := .bool b) acc nm tail rest rfl]
          rfl
        | num q =>
          rw [emit_noobj (n := .num q) acc nm tail (rest ++ B) rfl,
              emit_noobj (n := .num q) acc nm tail rest rfl]
          rfl
        | str s =>
          rw [emit_noobj (n := .str s) acc nm tail (rest ++ B) rfl,
              emit_noobj (n := .str s) acc nm tail rest rfl]
          rfl
        | arr xs =>
          rw [emit_noobj (n := .arr xs) acc nm tail (rest ++ B) rfl,
              emit_noobj (n := .arr xs) acc nm tail rest rfl]
          rfl
        | obj fields =>
          cases hpf : processFields nm fields acc with
          | error e =>
            rw [emit_perr (n := .obj fields) acc nm tail (rest ++ B) rfl hpf,
                emit_perr (n := .obj fields) acc nm tail rest rfl hpf]
            rfl
          | ok out =>
            obtain ⟨row', pushed, hb⟩ := out
            cases hb with
            | true =>
              rw [emit_dive (n := .obj fields) nm tail (rest ++ B) rfl hpf,
                  emit_dive (n := .obj fields) nm tail rest rfl hpf]
              rw [show pushed.reverse ++ ⟨nm, tail⟩ :: (rest ++ B)
                    = (pushed.reverse ++ ⟨nm, tail⟩ :: rest) ++ B from by
                  simp [List.append_assoc]]
              have hd := dive_stackW_lt (n := .obj fields) tail rest rfl hpf
              exact ih _ (by omega) row' B
            | false =>
              rw [emit_yield2 (n := .obj fields) nm tail (rest ++ B) rfl hpf,
                  emit_yield2 (n := .obj fields) nm tail rest rfl hpf]
              have hih := ih (⟨nm, tail⟩ :: rest)
                (by simp only [stackW, JList.size, JVal.size] at hlt ⊢; omega) row' B
              rw [show (⟨nm, tail⟩ :: rest) ++ B = ⟨nm, tail⟩ :: (rest ++ B) from rfl] at hih
              rw [hih]
              exact (emitSeq_emitCons row' _ B).symm

/-! ### Well-formed fields make `processFields` total, and tie it to the
leaf-path count -/
theorem processField_notobj (value : JVal) (hno : value.asObject = none)
    (nm key : String) (row : Row) :
    processField nm key value row = .ok (keyDocCount nm key value row, none, false) := by
  unfold processField
  rw [hno]

theorem processField_group {c : JFields} {a : JList} (nm key : String) (row : Row)
    (hbk : getField c "buckets" = some (.arr a)) :
    processField nm key (.obj c) row = .ok (row, some ⟨key, a⟩, true) := by
  unfold processField
  simp only [JVal.asObject, hbk]

theorem processField_metric {c : JFields} (nm key : String) (row : Row)
    (hbk : getField c "buckets" = none) (hch : wfMetricChecks c = true) :
    ∃ row1, processField nm key (.obj c) row = .ok (row1, none, false) := by
  cases hv : getField c "value" with
  | some v => exact ⟨_, by unfold processField; simp only [JVal.asObject, hbk, hv]; rfl⟩
  | none =>
    cases hsdb : getField c "std_deviation_bounds" with
    | none => exact ⟨_, by unfold processField; simp only [JVal.asObject, hbk, hv, hsdb]; rfl⟩
    | some sdb =>
      cases sdb with
      | null => exact ⟨_, by unfold processField; simp only [JVal.asObject, hbk, hv, hsdb]; rfl⟩
      | bool xb => exact ⟨_, by unfold processField; simp only [JVal.asObject, hbk, hv, hsdb]; rfl⟩
      | num xq => exact ⟨_, by unfold processField; simp only [JVal.asObject, hbk, hv, hsdb]; rfl⟩
      | str xs => exact ⟨_, by unfold processField; simp only [JVal.asObject, hbk, hv, hsdb]; rfl⟩
      | arr xa => exact ⟨_, by unfold processField; simp only [JVal.asObject, hbk, hv, hsdb]; rfl⟩
      | obj cv =>
        have hch2 : ((getField cv "upper").isSome && (getField cv "lower").isSome) = true := by
          unfold wfMetricChecks at hch
          simp only [hbk, hv, hsdb, JVal.asObject] at hch
          exact hch
        rw [Bool.and_eq_true] at hch2
        obtain ⟨hu0, hl0⟩ := hch2
        rw [Option.isSome_iff_exists] at hu0 hl0
        obtain ⟨u, hu⟩ := hu0
        obtain ⟨l, hl2⟩ := hl0
        exact ⟨_, by unfold processField; simp only [JVal.asObject, hbk, hv, hsdb, hu, hl2]; rfl⟩

theorem processFields_cons_field {nm key : String} {value : JVal} {row row1 : Row}
    (hpf : processField nm key value row = .ok (row1, none, false)) (tl : JFields) :
    processFields nm (.cons key value tl) row = processFields nm tl row1 := by
  simp only [processFields, hpf]
  cases processFields nm tl row1 with
  | error e => rfl
  | ok out =>
    obtain ⟨a, b, c2⟩ := out
    simp

theorem leafFields_cons (key : String) (value : JVal) (tl : JFields) :
    leafFields (.cons key value tl)
      = (let r := leafFields tl
         match leafFieldVal value with
         | some s => (s + r.1, true)
         | none => r) := rfl

theorem leafFields_cons_nogroup (value : JVal) (h : leafFieldVal value = none)
    (key : String) (tl : JFields) :
    leafFields (.cons key value tl) = leafFields tl := by
  rw [leafFields_cons, h]

theorem leafFields_cons_group {c : JFields} {a : JList}
    (hbk : getField c "buckets" = some (.arr a)) (key : String) (tl : JFields) :
    leafFields (.cons key (.obj c) tl)
      = (leafList a + (leafFields tl).1, true) := by
  rw [leafFields_cons, show leafFieldVal (.obj c) = leafMetric c from rfl,
    leafMetric_spec, hbk]
  rfl

theorem processFields_wf : ∀ (fs : JFields) (nm : String) (row : Row), wfFields fs = true →
    ∃ row2 pushed, processFields nm fs row = .ok (row2, pushed, (leafFields fs).2) ∧
      wfStack pushed = true ∧ leafStack pushed = (leafFields fs).1 := by
  intro fs
  induction fs using fieldsInduction with
  | nil =>
    intro nm row h
    exact ⟨row, [], rfl, rfl, rfl⟩
  | cons key value tl ih =>
    intro nm row h
    rw [show wfFields (.cons key value tl) = (wfFieldVal value && wfFields tl) from rfl,
        Bool.and_eq_true] at h
    obtain ⟨hv, htl⟩ := h
    cases value with
    | obj c =>
      rw [show wfFieldVal (.obj c) = (wfMetricFields c && wfMetricChecks c) from rfl,
          Bool.and_eq_true] at hv
      obtain ⟨hmf, hmc⟩ := hv
      cases hbk : getField c "buckets" with
      | some b =>
        obtain ⟨a, hba, hwfa⟩ := wfArrVal_arr (wfMetricFields_buckets hmf hbk)
        subst hba
        have hpf := processField_group nm key row (c := c) (a := a) hbk
        obtain ⟨row2, pushed, hrec, hwfp, hleafp⟩ := ih nm row htl
        have hlf := leafFields_cons_group hbk key tl
        refine ⟨row2, ⟨key, a⟩ :: pushed, ?_, ?_, ?_⟩
        · simp only [processFields, hpf, hrec, Option.toList, List.cons_append,
            List.nil_append, Bool.true_or, hlf]
        · rw [show wfStack (⟨key, a⟩ :: pushed) = (wfJList a && wfStack pushed) from rfl,
            hwfa, hwfp]
          rfl
        · rw [show leafStack (⟨key, a⟩ :: pushed) = leafList a + leafStack pushed from rfl,
            hleafp, hlf]
      | none =>
        obtain ⟨row1, hpf⟩ := processField_metric nm key row hbk hmc
        have hlf : leafFields (.cons key (.obj c) tl) = leafFields tl := by
          refine leafFields_cons_nogroup _ ?_ key tl
          rw [show leafFieldVal (.obj c) = leafMetric c from rfl, leafMetric_spec, hbk]
          rfl
        obtain ⟨row2, pushed, hrec, hwfp, hleafp⟩ := ih nm row1 htl
        refine ⟨row2, pushed, ?_, hwfp, ?_⟩
        · rw [processFields_cons_field hpf tl, hlf]
          exact hrec
        · rw [hlf]
          exact hleafp
    | null =>
      obtain ⟨row2, pushed, hrec, hwfp, hleafp⟩ := ih nm (keyDocCount nm key .null row) htl
      refine ⟨row2, pushed, ?_, hwfp, ?_⟩
      · rw [processFields_cons_field (processField_notobj (.null) rfl nm key row) tl,
          leafFields_cons_nogroup (.null) rfl key tl]
        exact hrec
      · rw [leafFields_cons_nogroup (.null) rfl key tl]
        exact hleafp
    | bool xb =>
      obtain ⟨row2, pushed, hrec, hwfp, hleafp⟩ := ih nm (keyDocCount nm key (.bool xb) row) htl
      refine ⟨row2, pushed, ?_, hwfp, ?_⟩
      · rw [processFields_cons_field (processField_notobj (.bool xb) rfl nm key row) tl,
          leafFields_cons_nogroup (.bool xb) rfl key tl]
        exact hrec
      · rw [leafFields_cons_nogroup (.bool xb) rfl key tl]
        exact hleafp
    | num xq =>
      obtain ⟨row2, pushed, hrec, hwfp, hleafp⟩ := ih nm (keyDocCount nm key (.num xq) row) htl
      refine ⟨row2, pushed, ?_, hwfp, ?_⟩
      · rw [processFields_cons_field (processField_notobj (.num xq) rfl nm key row) tl,
          leafFields_cons_nogroup (.num xq) rfl key tl]
        exact hrec
      · rw [leafFields_cons_nogroup (.num xq) rfl key tl]
        exact hleafp
    | str xs =>
      obtain ⟨row2, pushed, hrec, hwfp, hleafp⟩ := ih nm (keyDocCount nm key (.str xs) row) htl
      refine ⟨row2, pushed, ?_, hwfp, ?_⟩
      · rw [processFields_cons_field (processField_notobj (.str xs) rfl nm key row) tl,
          leafFields_cons_nogroup (.str xs) rfl key tl]
        exact hrec
      · rw [leafFields_cons_nogroup (.str xs) rfl key tl]
        exact hleafp
    | arr xa =>
      obtain ⟨row2, pushed, hrec, hwfp, hleafp⟩ := ih nm (keyDocCount nm key (.arr xa) row) htl
      refine ⟨row2, pushed, ?_, hwfp, ?_⟩
      · rw [processFields_cons_field (processField_notobj (.arr xa) rfl nm key row) tl,
          leafFields_cons_nogroup (.arr xa) rfl key tl]
        exact hrec
      · rw [leafFields_cons_nogroup (.arr xa) rfl key tl]
        exact hleafp

/-! ### Row count = leaf bucket path count, on well-formed stacks -/
theorem emit_count : ∀ (w : Nat) (stack : List Frame), stackW stack < w →
    wfStack stack = true → ∀ acc : Row,
    ∃ a rows, emitGroups acc stack = .ok (a, rows) ∧ rows.length = leafStack stack := by
  intro w
  induction w with
  | zero => intro stack h; omega
  | succ w ih =>
    intro stack hlt hwf acc
    cases stack with
    | nil => exact ⟨acc, [], rfl, rfl⟩
    | cons fr rest =>
      obtain ⟨nm, cur⟩ := fr
      rw [show wfStack (⟨nm, cur⟩ :: rest) = (wfJList cur && wfStack rest) from rfl,
          Bool.and_eq_true] at hwf
      obtain ⟨hwc, hwr⟩ := hwf
      cases cur with
      | nil =>
        obtain ⟨a, rows, hE, hlen⟩ :=
          ih rest (by simp only [stackW, JList.size] at hlt; omega) hwr acc
        refine ⟨a, rows, ?_, ?_⟩
        · rw [emit_skip]; exact hE
        · rw [show leafStack (⟨nm, JList.nil⟩ :: rest) = leafList .nil + leafStack rest from rfl]
          rw [hlen, show leafList JList.nil = 0 from rfl]
          omega
      | cons n tail =>
        rw [show wfJList (.cons n tail) = (wfBucket n && wfJList tail) from rfl,
            Bool.and_eq_true] at hwc
        obtain ⟨hwb, hwt⟩ := hwc
        cases n with
        | null => simp [wfBucket] at hwb
        | bool xb => simp [wfBucket] at hwb
        | num xq => simp [wfBucket] at hwb
        | str xs => simp [wfBucket] at hwb
        | arr xa => simp [wfBucket] at hwb
        | obj fields =>
          have hwfF : wfFields fields = true := hwb
          obtain ⟨row2, pushed, hpf, hwfp, hleafp⟩ := processFields_wf fields nm acc hwfF
          cases hb2 : (leafFields fields).2 with
          | true =>
            rw [hb2] at hpf
            have hd := dive_stackW_lt (n := .obj fields) tail rest rfl hpf
            have hwf2 : wfStack (pushed.reverse ++ ⟨nm, tail⟩ :: rest) = true := by
              rw [wfStack_append, wfStack_reverse,
                show wfStack (⟨nm, tail⟩ :: rest) = (wfJList tail && wfStack rest) from rfl,
                hwfp, hwt, hwr]
              rfl
            obtain ⟨a, rows, hE, hlen⟩ := ih _ (by omega) hwf2 row2
            refine ⟨a, rows, ?_, ?_⟩
            · rw [emit_dive (n := .obj fields) nm tail rest rfl hpf]; exact hE
            · rw [hlen, leafStack_append, leafStack_reverse, hleafp]
              rw [show leafStack (⟨nm, JList.cons (JVal.obj fields) tail⟩ :: rest)
                  = (leafCount (.obj fields) + leafList tail) + leafStack rest from rfl]
              rw [show leafCount (.obj fields)
                  = if (leafFields fields).2 then (leafFields fields).1 else 1 from rfl, hb2]
              rw [show leafStack (⟨nm, tail⟩ :: rest) = leafList tail + leafStack rest from rfl]
              simp only [if_true]
              omega
          | false =>
            rw [hb2] at hpf
            have hwf3 : wfStack (⟨nm, tail⟩ :: rest) = true := by
              rw [show wfStack (⟨nm, tail⟩ :: rest) = (wfJList tail && wfStack rest) from rfl,
                hwt, hwr]
              rfl
            obtain ⟨a, rows, hE, hlen⟩ := ih (⟨nm, tail⟩ :: rest)
              (by simp only [stackW, JList.size, JVal.size] at hlt ⊢; omega) hwf3 row2
            refine ⟨a, row2 :: rows, ?_, ?_⟩
            · rw [emit_yield2 (n := .obj fields) nm tail rest rfl hpf, hE]
              rfl
            · simp only [List.length_cons]
              rw [hlen]
              rw [show leafStack (⟨nm, JList.cons (JVal.obj fields) tail⟩ :: rest)
                  = (leafCount (.obj fields) + leafList tail) + leafStack rest from rfl]
              rw [show leafCount (.obj fields)
                  = if (leafFields fields).2 then (leafFields fields).1 else 1 from rfl, hb2]
              rw [show leafStack (⟨nm, tail⟩ :: rest) = leafList tail + leafStack rest from rfl]
              simp only [Bool.false_eq_true, if_false]
              omega

/-! ### The accumulator only ever gains columns -/
theorem rowFind_insert (k k' : String) (v : JVal) : ∀ (row : Row),
    rowFind (rowInsert k v row) k' = if (k == k') = true then some v else rowFind row k' := by
  intro row
  induction row with
  | nil =>
    by_cases h : k = k'
    · subst h; simp [rowInsert, rowFind]
    · simp [rowInsert, rowFind, h]
  | cons p r ih =>
    obtain ⟨k1, v1⟩ := p
    by_cases h1 : k = k1
    · subst h1
      by_cases h2 : k = k'
      · subst h2; simp [rowInsert, rowFind]
      · simp [rowInsert, rowFind, h2]
    · have hb : (k == k1) = false := by simp [h1]
      cases hc : compare k k1 with
      | lt =>
        by_cases h2 : k = k'
        · subst h2; simp [rowInsert, rowFind, hb, hc]
        · simp [rowInsert, rowFind, hb, hc, h2]
      | eq =>
        by_cases h3 : k1 = k'
        · subst h3
          simp [rowInsert, rowFind, hb, hc, h1]
        · by_cases h2 : k = k'
          · subst h2; simp [rowInsert, rowFind, hb, hc, h3, ih]
          · simp [rowInsert, rowFind, hb, hc, h3, h2, ih]
      | gt =>
        by_cases h3 : k1 = k'
        · subst h3
          simp [rowInsert, rowFind, hb, hc, h1]
        · by_cases h2 : k = k'
          · subst h2; simp [rowInsert, rowFind, hb, hc, h3, ih]
          · simp [rowInsert, rowFind, hb, hc, h3, h2, ih]

theorem rowFind_insert_self (k : String) (v : JVal) (row : Row) :
    rowFind (rowInsert k v row) k = some v := by
  rw [rowFind_insert]
  simp

theorem rowFind_insert_other {k k' : String} (h : k ≠ k') (v : JVal) (row : Row) :
    rowFind (rowInsert k v row) k' = rowFind row k' := by
  rw [rowFind_insert]
  simp [h]

theorem rowFind_insert_isSome {k' : String} {row : Row}
    (h : (rowFind row k').isSome = true) (k : String) (v : JVal) :
    (rowFind (rowInsert k v row) k').isSome = true := by
  rw [rowFind_insert]
  by_cases hk : (k == k') = true
  · simp [hk]
  · simp [hk, h]

theorem keyDocCount_mono {row : Row} {k' : String}
    (h : (rowFind row k').isSome = true) (active key : String) (value : JVal) :
    (rowFind (keyDocCount active key value row) k').isSome = true := by
  unfold keyDocCount
  cases hk : (key == "key") with
  | true =>
    simp only [hk, if_true]
    exact rowFind_insert_isSome h _ _
  | false =>
    cases hk2 : (key == "doc_count") with
    | true =>
      simp only [hk, hk2, Bool.false_eq_true, if_false, if_true]
      exact rowFind_insert_isSome h _ _
    | false =>
      simp only [hk, hk2, Bool.false_eq_true, if_false]
      exact h

theorem insert_value_mono (fieldname : String) (json_object : JFields) (keyname : String)
    {row : Row} {k' : String} (h : (rowFind row k').isSome = true) :
    (rowFind (insert_value fieldname json_object keyname row) k').isSome = true := by
  unfold insert_value
  cases getField json_object fieldname with
  | none => exact h
  | some v => exact rowFind_insert_isSome h _ _

theorem statInserts_mono {row : Row} {k' : String}
    (h : (rowFind row k').isSome = true) (c : JFields) (key : String) :
    (rowFind (statInserts c key row) k').isSome = true := by
  unfold statInserts
  exact insert_value_mono _ _ _ (insert_value_mono _ _ _ (insert_value_mono _ _ _
    (insert_value_mono _ _ _ (insert_value_mono _ _ _ (insert_value_mono _ _ _
      (insert_value_mono _ _ _ (insert_value_mono _ _ _ h)))))))

theorem processField_mono {active key : String} {value : JVal} {row row' : Row}
    {fr : Option Frame} {hb : Bool} {k' : String}
    (hpf : processField active key value row = .ok (row', fr, hb))
    (h : (rowFind row k').isSome = true) : (rowFind row' k').isSome = true := by
  unfold processField at hpf
  split at hpf
  · cases hpf
    exact keyDocCount_mono h _ _ _
  · split at hpf
    · cases hpf; exact h
    · cases hpf; exact h
    · split at hpf
      · cases hpf
        exact rowFind_insert_isSome h _ _
      · split at hpf
        · split at hpf
          · cases hpf
            exact keyDocCount_mono (statInserts_mono h _ _) _ _ _
          · split at hpf
            · cases hpf
              exact keyDocCount_mono
                (rowFind_insert_isSome (rowFind_insert_isSome (statInserts_mono h _ _) _ _) _ _) _ _ _
            · exact absurd hpf (by simp)
        · cases hpf
          exact keyDocCount_mono (statInserts_mono h _ _) _ _ _

theorem processFields_mono : ∀ (fs : JFields) {active : String} {row row' : Row}
    {pushed : List Frame} {hb : Bool} {k' : String},
    processFields active fs row = .ok (row', pushed, hb) →
    (rowFind row k').isSome = true → (rowFind row' k').isSome = true := by
  intro fs
  induction fs using fieldsInduction with
  | nil =>
    intro active row row' pushed hb k' hp h
    cases hp
    exact h
  | cons key value tl ih =>
    intro active row row' pushed hb k' hp h
    simp only [processFields] at hp
    cases hpf : processField active key value row with
    | error e => simp [hpf] at hp
    | ok out =>
      obtain ⟨row1, fr1, hb1⟩ := out
      simp only [hpf] at hp
      cases hpfs : processFields active tl row1 with
      | error e => simp [hpfs] at hp
      | ok out2 =>
        obtain ⟨row2, frames2, hb2⟩ := out2
        simp only [hpfs, Except.ok.injEq, Prod.mk.injEq] at hp
        obtain ⟨hr2, -, -⟩ := hp
        subst hr2
        exact ih hpfs (processField_mono hpf h)

theorem loopNext_mono : ∀ (w : Nat) (stack : List Frame), stackW stack < w →
    ∀ {row r : Row} {stack2 : List Frame} {k' : String},
    loopNext row stack = .ok (some r, stack2) →
    (rowFind row k').isSome = true → (rowFind r k').isSome = true := by
  intro w
  induction w with
  | zero => intro stack h; omega
  | succ w ih =>
    intro stack hlt row r stack2 k' hl h
    cases stack with
    | nil => rw [loopNext_nil] at hl; simp at hl
    | cons fr rest =>
      obtain ⟨nm, cur⟩ := fr
      cases cur with
      | nil =>
        rw [loopNext_skip] at hl
        exact ih rest (by simp only [stackW, JList.size] at hlt; omega) hl h
      | cons n tail =>
        cases n with
        | null => rw [loopNext_noobj (n := .null) row nm tail rest rfl] at hl; simp at hl
        | bool b => rw [loopNext_noobj (n := .bool b) row nm tail rest rfl] at hl; simp at hl
        | num q => rw [loopNext_noobj (n := .num q) row nm tail rest rfl] at hl; simp at hl
        | str s => rw [loopNext_noobj (n := .str s) row nm tail rest rfl] at hl; simp at hl
        | arr xs => rw [loopNext_noobj (n := .arr xs) row nm tail rest rfl] at hl; simp at hl
        | obj fields =>
          cases hpf : processFields nm fields row with
          | error e =>
            rw [loopNext_perr (n := .obj fields) row nm tail rest rfl hpf] at hl
            simp at hl
          | ok out =>
            obtain ⟨row', pushed, hb⟩ := out
            cases hb with
            | true =>
              rw [loopNext_dive (n := .obj fields) nm tail rest rfl hpf] at hl
              have hd := dive_stackW_lt (n := .obj fields) tail rest rfl hpf
              exact ih _ (by omega) hl (processFields_mono fields hpf h)
            | false =>
              rw [loopNext_yield (n := .obj fields) nm tail rest rfl hpf] at hl
              simp only [Except.ok.injEq, Prod.mk.injEq, Option.some.injEq] at hl
              obtain ⟨hr, -⟩ := hl
              subst hr
              exact processFields_mono fields hpf h

theorem runRows_mono : ∀ (w : Nat) (st : AggregationIterator), stackW st.iter_stack < w →
    ∀ {rows : List Row} {k' : String},
    runRows st = .ok rows → (rowFind (st.current_row.getD []) k').isSome = true →
    ∀ ρ ∈ rows, (rowFind ρ k').isSome = true := by
  intro w
  induction w with
  | zero => intro st h; omega
  | succ w ih =>
    intro st hlt rows k' hr h
    cases hn : next st with
    | error e => rw [runRows_err hn] at hr; simp at hr
    | ok res =>
      obtain ⟨ro, st'⟩ := res
      cases ro with
      | none =>
        rw [runRows_done hn] at hr
        cases hr
        intro ρ hρ
        simp at hρ
      | some r =>
        obtain ⟨hl, hcr, -, hwlt⟩ := next_yield hn
        rw [runRows_yield2 hn] at hr
        cases hR : runRows st' with
        | error e => rw [hR] at hr; simp [consRows] at hr
        | ok rows' =>
          rw [hR] at hr
          simp only [consRows, Except.ok.injEq] at hr
          subst hr
          have hrk : (rowFind r k').isSome = true :=
            loopNext_mono (stackW st.iter_stack + 1) st.iter_stack
              (Nat.lt_succ_self _) hl h
          intro ρ hρ
          cases hρ with
          | head => exact hrk
          | tail _ hmem =>
            refine ih st' (by omega) hR ?_ ρ hmem
            rw [hcr]
            exact hrk

theorem strAppend_cancel {a b c : String} (h : a ++ b = a ++ c) : b = c := by
  have hd := congrArg String.data h
  simp only [String.data_append] at hd
  exact String.ext (List.append_cancel_left hd)

theorem strAppend_ne (a : String) {b c : String} (h : b ≠ c) : a ++ b ≠ a ++ c :=
  fun he => h (strAppend_cancel he)

theorem sdbUpper_eq (k : String) :
    k ++ "_std_deviation_bounds_upper" = (k ++ "_") ++ "std_deviation_bounds_upper" := by
  rw [String.append_assoc]
  rfl

theorem sdbLower_eq (k : String) :
    k ++ "_std_deviation_bounds_lower" = (k ++ "_") ++ "std_deviation_bounds_lower" := by
  rw [String.append_assoc]
  rfl

theorem keyDocCount_skip {key : String} (hk : ¬(key = "key")) (hd : ¬(key = "doc_count"))
    (active : String) (value : JVal) (row : Row) :
    keyDocCount active key value row = row := by
  unfold keyDocCount
  simp [hk, hd]

theorem keyDocCount_frame {active t : String} (h1 : active ≠ t)
    (h2 : active ++ "_doc_count" ≠ t) (key : String) (value : JVal) (row : Row) :
    rowFind (keyDocCount active key value row) t = rowFind row t := by
  unfold keyDocCount
  cases hk : (key == "key") with
  | true =>
    simp only [hk, if_true]
    exact rowFind_insert_other h1 _ _
  | false =>
    cases hd : (key == "doc_count") with
    | true =>
      simp only [hk, hd, Bool.false_eq_true, if_false, if_true]
      exact rowFind_insert_other h2 _ _
    | false =>
      simp only [hk, hd, Bool.false_eq_true, if_false]

theorem insert_value_frame {keyname fieldname t : String}
    (hne : keyname ++ "_" ++ fieldname ≠ t) (c : JFields) (row : Row) :
    rowFind (insert_value fieldname c keyname row) t = rowFind row t := by
  unfold insert_value
  cases getField c fieldname with
  | none => rfl
  | some v => exact rowFind_insert_other hne _ _

theorem insert_value_self {fieldname : String} {c : JFields} {w : JVal}
    (hs : getField c fieldname = some w) (keyname : String) (row : Row) :
    rowFind (insert_value fieldname c keyname row) (keyname ++ "_" ++ fieldname) = some w := by
  unfold insert_value
  rw [hs]
  exact rowFind_insert_self _ _ _

theorem statInserts_frame {key t : String}
    (hne : ∀ s ∈ statNames, key ++ "_" ++ s ≠ t) (c : JFields) (row : Row) :
    rowFind (statInserts c key row) t = rowFind row t := by
  unfold statInserts
  rw [insert_value_frame (hne "std_deviation" (by simp [statNames])),
      insert_value_frame (hne "variance" (by simp [statNames])),
      insert_value_frame (hne "sum_of_squares" (by simp [statNames])),
      insert_value_frame (hne "sum" (by simp [statNames])),
      insert_value_frame (hne "avg" (by simp [statNames])),
      insert_value_frame (hne "max" (by simp [statNames])),
      insert_value_frame (hne "min" (by simp [statNames])),
      insert_value_frame (hne "count" (by simp [statNames]))]

theorem statInserts_find {c : JFields} {s : String} {w : JVal}
    (hmem : s ∈ statNames) (hs : getField c s = some w) (key : String) (row : Row) :
    rowFind (statInserts c key row) (key ++ "_" ++ s) = some w := by
  unfold statInserts
  simp only [statNames, List.mem_cons, List.not_mem_nil, or_false] at hmem
  rcases hmem with rfl | rfl | rfl | rfl | rfl | rfl | rfl | rfl
  · rw [insert_value_frame (strAppend_ne (key ++ "_") (by decide)),
        insert_value_frame (strAppend_ne (key ++ "_") (by decide)),
        insert_value_frame (strAppend_ne (key ++ "_") (by decide)),
        insert_value_frame (strAppend_ne (key ++ "_") (by decide)),
        insert_value_frame (strAppend_ne (key ++ "_") (by decide)),
        insert_value_frame (strAppend_ne (key ++ "_") (by decide)),
        insert_value_frame (strAppend_ne (key ++ "_") (by decide))]
    exact insert_value_self hs _ _
  · rw [insert_value_frame (strAppend_ne (key ++ "_") (by decide)),
        insert_value_frame (strAppend_ne (key ++ "_") (by decide)),
        insert_value_frame (strAppend_ne (key ++ "_") (by decide)),
        insert_value_frame (strAppend_ne (key ++ "_") (by decide)),
        insert_value_frame (strAppend_ne (key ++ "_") (by decide)),
        insert_value_frame (strAppend_ne (key ++ "_") (by decide))]
    exact insert_value_self hs _ _
  · rw [insert_value_frame (strAppend_ne (key ++ "_") (by decide)),
        insert_value_frame (strAppend_ne (key ++ "_") (by decide)),
        insert_value_frame (strAppend_ne (key ++ "_") (by decide)),
        insert_value_frame (strAppend_ne (key ++ "_") (by decide)),
        insert_value_frame (strAppend_ne (key ++ "_") (by decide))]
    exact insert_value_self hs _ _
  · rw [insert_value_frame (strAppend_ne (key ++ "_") (by decide)),
        insert_value_frame (strAppend_ne (key ++ "_") (by decide)),
        insert_value_frame (strAppend_ne (key ++ "_") (by decide)),
        insert_value_frame (strAppend_ne (key ++ "_") (by decide))]
    exact insert_value_self hs _ _
  · rw [insert_value_frame (strAppend_ne (key ++ "_") (by decide)),
        insert_value_frame (strAppend_ne (key ++ "_") (by decide)),
        insert_value_frame (strAppend_ne (key ++ "_") (by decide))]
    exact insert_value_self hs _ _
  · rw [insert_value_frame (strAppend_ne (key ++ "_") (by decide)),
        insert_value_frame (strAppend_ne (key ++ "_") (by decide))]
    exact insert_value_self hs _ _
  · rw [insert_value_frame (strAppend_ne (key ++ "_") (by decide))]
    exact insert_value_self hs _ _
  · exact insert_value_self hs _ _

/-! ### Construction-time stack facts -/
theorem wf_topFrames : ∀ fs : JFields, wfFields fs = true → wfStack (topFrames fs) = true := by
  intro fs
  induction fs using fieldsInduction with
  | nil => intro h; rfl
  | cons k v tl ih =>
    intro h
    simp only [wfFields, Bool.and_eq_true] at h
    obtain ⟨hv, htl⟩ := h
    simp only [topFrames]
    cases hq : qualFrame v with
    | none => exact ih htl
    | some a =>
      unfold qualFrame at hq
      cases hvo : v.asObject with
      | none => simp [hvo] at hq
      | some c =>
        simp [hvo] at hq
        cases hbk : getField c "buckets" with
        | none => simp [hbk] at hq
        | some b =>
          simp only [hbk] at hq
          have hc : v = .obj c := asObject_some hvo
          subst hc
          have hmf : wfMetricFields c = true := by
            simp only [wfFieldVal, Bool.and_eq_true] at hv
            exact hv.1
          have hwA : wfArrVal b = true := wfMetricFields_buckets hmf hbk
          obtain ⟨a0, rfl, hwl⟩ := wfArrVal_arr hwA
          simp [JVal.asArray] at hq
          subst hq
          simp only [wfStack, Bool.and_eq_true]
          exact ⟨hwl, ih htl⟩

theorem topFrames_append : ∀ xs ys : JFields,
    topFrames (JFields.append xs ys) = topFrames xs ++ topFrames ys := by
  intro xs ys
  induction xs using fieldsInduction with
  | nil => rfl
  | cons k v tl ih =>
    simp only [JFields.append, topFrames]
    cases qualFrame v with
    | some a => simp [ih]
    | none => exact ih

/-! ### What a single bucket field writes into the row -/
theorem processField_frame {active key : String} {value : JVal} {row row' : Row}
    {fr : Option Frame} {hb : Bool} {t : String}
    (hpf : processField active key value row = .ok (row', fr, hb))
    (ht : ∀ n ∈ writtenNames active key, n ≠ t) :
    rowFind row' t = rowFind row t := by
  have hk : key ≠ t := ht key (by simp [writtenNames])
  have ha : active ≠ t := ht active (by simp [writtenNames])
  have hadc : active ++ "_doc_count" ≠ t := ht _ (by simp [writtenNames])
  have hus : key ++ "_std_deviation_bounds_upper" ≠ t := ht _ (by simp [writtenNames])
  have hls : key ++ "_std_deviation_bounds_lower" ≠ t := ht _ (by simp [writtenNames])
  have hstats : ∀ s ∈ statNames, key ++ "_" ++ s ≠ t := by
    intro s hs
    refine ht _ ?_
    simp only [writtenNames, List.mem_cons]
    exact Or.inr (Or.inr (Or.inr (Or.inr (Or.inr (List.mem_map.mpr ⟨s, hs, rfl⟩)))))
  unfold processField at hpf
  split at hpf
  · cases hpf
    exact keyDocCount_frame ha hadc _ _ _
  · split at hpf
    · cases hpf; rfl
    · cases hpf; rfl
    · split at hpf
      · cases hpf
        exact rowFind_insert_other hk _ _
      · split at hpf
        · split at hpf
          · cases hpf
            rw [keyDocCount_frame ha hadc, statInserts_frame hstats]
          · split at hpf
            · cases hpf
              rw [keyDocCount_frame ha hadc, rowFind_insert_other hls,
                  rowFind_insert_other hus, statInserts_frame hstats]
            · exact absurd hpf (by simp)
        · cases hpf
          rw [keyDocCount_frame ha hadc, statInserts_frame hstats]

theorem processField_value {active key : String} {value : JVal} {c : JFields} {v : JVal}
    {row row' : Row} {fr : Option Frame} {hb : Bool}
    (hobj : value.asObject = some c) (hnb : getField c "buckets" = none)
    (hv : getField c "value" = some v)
    (hpf : processField active key value row = .ok (row', fr, hb)) :
    rowFind row' key = some v := by
  unfold processField at hpf
  simp only [hobj, hnb, hv, Except.ok.injEq, Prod.mk.injEq] at hpf
  obtain ⟨h1, -, -⟩ := hpf
  rw [← h1]
  exact rowFind_insert_self _ _ _

theorem processField_stat {active key : String} {value : JVal} {c : JFields} {s : String}
    {w : JVal} {row row' : Row} {fr : Option Frame} {hb : Bool}
    (hobj : value.asObject = some c) (hnb : getField c "buckets" = none)
    (hnv : getField c "value" = none)
    (hkk : ¬(key = "key")) (hkd : ¬(key = "doc_count"))
    (hmem : s ∈ statNames) (hs : getField c s = some w)
    (hpf : processField active key value row = .ok (row', fr, hb)) :
    rowFind row' (key ++ "_" ++ s) = some w := by
  have hsne : ¬("std_deviation_bounds_lower" = s) ∧ ¬("std_deviation_bounds_upper" = s) := by
    have hm := hmem
    simp only [statNames, List.mem_cons, List.not_mem_nil, or_false] at hm
    rcases hm with rfl | rfl | rfl | rfl | rfl | rfl | rfl | rfl <;>
      exact ⟨by decide, by decide⟩
  unfold processField at hpf
  simp only [hobj, hnb, hnv] at hpf
  cases hsdb : getField c "std_deviation_bounds" with
  | none =>
    simp only [hsdb, Except.ok.injEq, Prod.mk.injEq] at hpf
    obtain ⟨h1, -, -⟩ := hpf
    rw [← h1, keyDocCount_skip hkk hkd]
    exact statInserts_find hmem hs _ _
  | some sdb =>
    simp only [hsdb] at hpf
    cases hcv : sdb.asObject with
    | none =>
      simp only [hcv, Except.ok.injEq, Prod.mk.injEq] at hpf
      obtain ⟨h1, -, -⟩ := hpf
      rw [← h1, keyDocCount_skip hkk hkd]
      exact statInserts_find hmem hs _ _
    | some cv =>
      simp only [hcv] at hpf
      cases hu : getField cv "upper" with
      | none => simp [hu] at hpf
      | some u =>
        cases hl2 : getField cv "lower" with
        | none => simp [hu, hl2] at hpf
        | some l =>
          simp only [hu, hl2, Except.ok.injEq, Prod.mk.injEq] at hpf
          obtain ⟨h1, -, -⟩ := hpf
          rw [← h1, keyDocCount_skip hkk hkd,
              rowFind_insert_other (by rw [sdbLower_eq]; exact strAppend_ne _ hsne.1),
              rowFind_insert_other (by rw [sdbUpper_eq]; exact strAppend_ne _ hsne.2)]
          exact statInserts_find hmem hs _ _

theorem processField_bounds {active key : String} {value sdb : JVal} {c cv : JFields}
    {u l : JVal} {row row' : Row} {fr : Option Frame} {hb : Bool}
    (hobj : value.asObject = some c) (hnb : getField c "buckets" = none)
    (hnv : getField c "value" = none)
    (hkk : ¬(key = "key")) (hkd : ¬(key = "doc_count"))
    (hsdb : getField c "std_deviation_bounds" = some sdb)
    (hcv : sdb.asObject = some cv)
    (hu : getField cv "upper" = some u) (hl : getField cv "lower" = some l)
    (hpf : processField active key value row = .ok (row', fr, hb)) :
    rowFind row' (key ++ "_std_deviation_bounds_upper") = some u ∧
    rowFind row' (key ++ "_std_deviation_bounds_lower") = some l := by
  unfold processField at hpf
  simp only [hobj, hnb, hnv, hsdb, hcv, hu, hl, Except.ok.injEq, Prod.mk.injEq] at hpf
  obtain ⟨h1, -, -⟩ := hpf
  constructor
  · rw [← h1, keyDocCount_skip hkk hkd,
        rowFind_insert_other (strAppend_ne key (by decide))]
    exact rowFind_insert_self _ _ _
  · rw [← h1, keyDocCount_skip hkk hkd]
    exact rowFind_insert_self _ _ _

/-! ### The machine emits exactly the depth-first, left-to-right enumeration -/

theorem seqRows_congr {f g : Row → Except String (Row × List Row)}
    (h : ∀ a, f a = g a) (x : Except String (Row × List Row)) :
    seqRows x f = seqRows x g := by
  cases x with
  | error e => rfl
  | ok p =>
    simp only [seqRows]
    rw [h p.1]

theorem emitSeq_eq_seqRows (x : Except String (Row × List Row)) (B : List Frame) :
    emitSeq x B = seqRows x (fun a => emitGroups a B) := by
  cases x with
  | error e => rfl
  | ok p =>
    simp only [emitSeq, seqRows]

theorem dfsRowsF_agree : ∀ (u v : Nat) (acc : Row) (stack : List Frame),
    stackW stack < u → stackW stack < v → dfsRowsF u acc stack = dfsRowsF v acc stack := by
  intro u
  induction u with
  | zero => intro v acc stack hu; omega
  | succ u ih =>
    intro v acc stack hu hv
    cases v with
    | zero => omega
    | succ v =>
      cases stack with
      | nil => rfl
      | cons fr rest =>
        obtain ⟨nm, cur⟩ := fr
        cases cur with
        | nil =>
          simp only [dfsRowsF]
          refine ih v acc rest ?_ ?_
          · simp only [stackW, JList.size] at hu; omega
          · simp only [stackW, JList.size] at hv; omega
        | cons n tail =>
          simp only [dfsRowsF]
          cases n with
          | null => rfl
          | bool b => rfl
          | num q => rfl
          | str s => rfl
          | arr xs => rfl
          | obj fields =>
            simp only [JVal.asObject]
            cases hpf : processFields nm fields acc with
            | error e => rfl
            | ok out =>
              obtain ⟨row', pushed, hb⟩ := out
              have hbnd := processFields_bound hpf
              have hu2 : stackW (⟨nm, tail⟩ :: rest) < u := by
                simp only [stackW, JList.size, JVal.size] at hu ⊢
                omega
              have hv2 : stackW (⟨nm, tail⟩ :: rest) < v := by
                simp only [stackW, JList.size, JVal.size] at hv ⊢
                omega
              cases hb with
              | false =>
                show ((match dfsRowsF u row' (⟨nm, tail⟩ :: rest) with
                      | Except.error e => Except.error e
                      | Except.ok (acc2, rows2) => Except.ok (acc2, row' :: rows2))
                        : Except String (Row × List Row))
                    = ((match dfsRowsF v row' (⟨nm, tail⟩ :: rest) with
                      | Except.error e => Except.error e
                      | Except.ok (acc2, rows2) => Except.ok (acc2, row' :: rows2))
                        : Except String (Row × List Row))
                rw [ih v row' (⟨nm, tail⟩ :: rest) hu2 hv2]
              | true =>
                have hu1 : stackW pushed.reverse < u := by
                  rw [stackW_reverse]
                  simp only [stackW, JList.size, JVal.size] at hu
                  omega
                have hv1 : stackW pushed.reverse < v := by
                  rw [stackW_reverse]
                  simp only [stackW, JList.size, JVal.size] at hv
                  omega
                show ((match dfsRowsF u row' pushed.reverse with
                      | Except.error e => Except.error e
                      | Except.ok (acc1, rows1) =>
                        match dfsRowsF u acc1 (⟨nm, tail⟩ :: rest) with
                        | Except.error e => Except.error e
                        | Except.ok (acc2, rows2) => Except.ok (acc2, rows1 ++ rows2))
                        : Except String (Row × List Row))
                    = ((match dfsRowsF v row' pushed.reverse with
                      | Except.error e => Except.error e
                      | Except.ok (acc1, rows1) =>
                        match dfsRowsF v acc1 (⟨nm, tail⟩ :: rest) with
                        | Except.error e => Except.error e
                        | Except.ok (acc2, rows2) => Except.ok (acc2, rows1 ++ rows2))
                        : Except String (Row × List Row))
                rw [ih v row' pushed.reverse hu1 hv1]
                cases hd : dfsRowsF v row' pushed.reverse with
                | error e => rfl
                | ok p =>
                  obtain ⟨acc1, rows1⟩ := p
                  show ((match dfsRowsF u acc1 (⟨nm, tail⟩ :: rest) with
                        | Except.error e => Except.error e
                        | Except.ok (acc2, rows2) => Except.ok (acc2, rows1 ++ rows2))
                          : Except String (Row × List Row))
                      = ((match dfsRowsF v acc1 (⟨nm, tail⟩ :: rest) with
                        | Except.error e => Except.error e
                        | Except.ok (acc2, rows2) => Except.ok (acc2, rows1 ++ rows2))
                          : Except String (Row × List Row))
                  rw [ih v acc1 (⟨nm, tail⟩ :: rest) hu2 hv2]

theorem dfsRowsF_eq_dfsRows (w : Nat) (acc : Row) (stack : List Frame)
    (h : stackW stack < w) : dfsRowsF w acc stack = dfsRows acc stack :=
  dfsRowsF_agree w (stackW stack + 1) acc stack h (Nat.lt_succ_self _)

theorem dfs_nil (acc : Row) : dfsRows acc [] = .ok (acc, []) := rfl

theorem dfs_skip (acc : Row) (nm : String) (rest : List Frame) :
    dfsRows acc (⟨nm, .nil⟩ :: rest) = dfsRows acc rest := by
  unfold dfsRows
  rw [show stackW (⟨nm, .nil⟩ :: rest) + 1 = (1 + JList.size .nil + stackW rest) + 1 from rfl]
  simp only [dfsRowsF]
  exact dfsRowsF_eq_dfsRows _ _ _ (by simp only [JList.size]; omega)

theorem dfs_noobj {n : JVal} (acc : Row) (nm : String) (tail : JList) (rest : List Frame)
    (hno : n.asObject = none) :
    dfsRows acc (⟨nm, .cons n tail⟩ :: rest) = .error bucketPanic := by
  unfold dfsRows
  rw [show stackW (⟨nm, .cons n tail⟩ :: rest) + 1
        = (1 + (1 + JVal.size n + JList.size tail) + stackW rest) + 1 from rfl]
  simp only [dfsRowsF, hno]

theorem dfs_perr {n : JVal} {fields : JFields} {e : String} (acc : Row) (nm : String)
    (tail : JList) (rest : List Frame)
    (hno : n.asObject = some fields) (hpf : processFields nm fields acc = .error e) :
    dfsRows acc (⟨nm, .cons n tail⟩ :: rest) = .error e := by
  unfold dfsRows
  rw [show stackW (⟨nm, .cons n tail⟩ :: rest) + 1
        = (1 + (1 + JVal.size n + JList.size tail) + stackW rest) + 1 from rfl]
  simp only [dfsRowsF, hno, hpf]

theorem dfs_yield {n : JVal} {fields : JFields} {acc row' : Row} {pushed : List Frame}
    (nm : String) (tail : JList) (rest : List Frame)
    (hno : n.asObject = some fields)
    (hpf : processFields nm fields acc = .ok (row', pushed, false)) :
    dfsRows acc (⟨nm, .cons n tail⟩ :: rest)
      = emitCons row' (dfsRows row' (⟨nm, tail⟩ :: rest)) := by
  have hb2 : stackW (⟨nm, tail⟩ :: rest)
      < 1 + (1 + JVal.size n + JList.size tail) + stackW rest := by
    have := JVal.size_pos n
    simp only [stackW]
    omega
  have step : dfsRows acc (⟨nm, .cons n tail⟩ :: rest)
      = emitCons row' (dfsRowsF (1 + (1 + JVal.size n + JList.size tail) + stackW rest)
          row' (⟨nm, tail⟩ :: rest)) := by
    unfold dfsRows
    rw [show stackW (⟨nm, .cons n tail⟩ :: rest) + 1
          = (1 + (1 + JVal.size n + JList.size tail) + stackW rest) + 1 from rfl]
    simp only [dfsRowsF, hno, hpf]
    cases dfsRowsF (1 + (1 + JVal.size n + JList.size tail) + stackW rest)
        row' (⟨nm, tail⟩ :: rest) with
    | error e => rfl
    | ok q => obtain ⟨acc2, rows2⟩ := q; rfl
  rw [step, dfsRowsF_eq_dfsRows _ _ _ hb2]

theorem dfs_dive {n : JVal} {fields : JFields} {acc row' : Row} {pushed : List Frame}
    (nm : String) (tail : JList) (rest : List Frame)
    (hno : n.asObject = some fields)
    (hpf : processFields nm fields acc = .ok (row', pushed, true)) :
    dfsRows acc (⟨nm, .cons n tail⟩ :: rest)
      = seqRows (dfsRows row' pushed.reverse) (fun a => dfsRows a (⟨nm, tail⟩ :: rest)) := by
  have hn : n = .obj fields := asObject_some hno
  have hbnd : stackW pushed ≤ JFields.size fields := processFields_bound hpf
  have hsz : JVal.size n = 1 + JFields.size fields := by rw [hn]; rfl
  have hb1 : stackW pushed.reverse
      < 1 + (1 + JVal.size n + JList.size tail) + stackW rest := by
    rw [stackW_reverse]
    omega
  have hb2 : stackW (⟨nm, tail⟩ :: rest)
      < 1 + (1 + JVal.size n + JList.size tail) + stackW rest := by
    have := JVal.size_pos n
    simp only [stackW]
    omega
  have step : dfsRows acc (⟨nm, .cons n tail⟩ :: rest)
      = seqRows (dfsRowsF (1 + (1 + JVal.size n + JList.size tail) + stackW rest)
            row' pushed.reverse)
          (fun a => dfsRowsF (1 + (1 + JVal.size n + JList.size tail) + stackW rest)
            a (⟨nm, tail⟩ :: rest)) := by
    unfold dfsRows
    rw [show stackW (⟨nm, .cons n tail⟩ :: rest) + 1
          = (1 + (1 + JVal.size n + JList.size tail) + stackW rest) + 1 from rfl]
    simp only [dfsRowsF, hno, hpf]
    cases hd : dfsRowsF (1 + (1 + JVal.size n + JList.size tail) + stackW rest)
        row' pushed.reverse with
    | error e => rfl
    | ok p =>
      obtain ⟨acc1, rows1⟩ := p
      show ((match dfsRowsF (1 + (1 + JVal.size n + JList.size tail) + stackW rest)
              acc1 (⟨nm, tail⟩ :: rest) with
            | Except.error e => Except.error e
            | Except.ok (acc2, rows2) => Except.ok (acc2, rows1 ++ rows2))
              : Except String (Row × List Row))
          = seqRows (Except.ok (acc1, rows1))
              (fun a => dfsRowsF (1 + (1 + JVal.size n + JList.size tail) + stackW rest)
                a (⟨nm, tail⟩ :: rest))
      simp only [seqRows]
      cases dfsRowsF (1 + (1 + JVal.size n + JList.size tail) + stackW rest)
          acc1 (⟨nm, tail⟩ :: rest) with
      | error e => rfl
      | ok q => rfl
  rw [step, dfsRowsF_eq_dfsRows _ _ _ hb1]
  exact seqRows_congr
    (fun a => dfsRowsF_eq_dfsRows _ a (⟨nm, tail⟩ :: rest) hb2) _

theorem emit_eq_dfs : ∀ (w : Nat) (stack : List Frame), stackW stack < w → ∀ acc : Row,
    emitGroups acc stack = dfsRows acc stack := by
  intro w
  induction w with
  | zero => intro stack h; omega
  | succ w ih =>
    intro stack hlt acc
    cases stack with
    | nil => rfl
    | cons fr rest =>
      obtain ⟨nm, cur⟩ := fr
      cases cur with
      | nil =>
        rw [emit_skip, dfs_skip]
        exact ih rest (by simp only [stackW, JList.size] at hlt; omega) acc
      | cons n tail =>
        cases n with
        | null =>
          rw [emit_noobj (n := .null) acc nm tail rest rfl,
              dfs_noobj (n := .null) acc nm tail rest rfl]
        | bool b =>
          rw [emit_noobj (n := .bool b) acc nm tail rest rfl,
              dfs_noobj (n := .bool b) acc nm tail rest rfl]
        | num q =>
          rw [emit_noobj (n := .num q) acc nm tail rest rfl,
              dfs_noobj (n := .num q) acc nm tail rest rfl]
        | str s =>
          rw [emit_noobj (n := .str s) acc nm tail rest rfl,
              dfs_noobj (n := .str s) acc nm tail rest rfl]
        | arr xs =>
          rw [emit_noobj (n := .arr xs) acc nm tail rest rfl,
              dfs_noobj (n := .arr xs) acc nm tail rest rfl]
        | obj fields =>
          cases hpf : processFields nm fields acc with
          | error e =>
            rw [emit_perr (n := .obj fields) acc nm tail rest rfl hpf,
                dfs_perr (n := .obj fields) acc nm tail rest rfl hpf]
          | ok out =>
            obtain ⟨row', pushed, hb⟩ := out
            have hsib : stackW (⟨nm, tail⟩ :: rest) < w := by
              simp only [stackW, JList.size, JVal.size] at hlt ⊢
              omega
            cases hb with
            | false =>
              rw [emit_yield2 (n := .obj fields) nm tail rest rfl hpf,
                  dfs_yield (n := .obj fields) nm tail rest rfl hpf,
                  ih (⟨nm, tail⟩ :: rest) hsib row']
            | true =>
              have hchild : stackW pushed.reverse < w := by
                rw [stackW_reverse]
                have hbnd := processFields_bound hpf
                simp only [stackW, JList.size, JVal.size] at hlt
                omega
              rw [emit_dive (n := .obj fields) nm tail rest rfl hpf,
                  dfs_dive (n := .obj fields) nm tail rest rfl hpf,
                  emit_append (stackW pushed.reverse + 1) pushed.reverse
                    (Nat.lt_succ_self _) row' (⟨nm, tail⟩ :: rest),
                  emitSeq_eq_seqRows, ih pushed.reverse hchild row']
              exact seqRows_congr (fun a => ih (⟨nm, tail⟩ :: rest) hsib a) _

/-! ### The claims -/
/-- Claim C2: for a single top-level aggregation `G` with buckets
`[{key: "a", doc_count: 3}, {key: "b", doc_count: 5}]`, iteration yields
exactly two rows, `{G: "a", G_doc_count: 3}` then `{G: "b", G_doc_count: 5}`:
the `key` field lands in the column named by the active aggregation name and
`doc_count` in `<name>_doc_count`. -/
theorem agg_two_buckets_C2 :
    aggRows tC2 = .ok [[("G", JVal.str "a"), ("G_doc_count", JVal.num 3)],
                       [("G", JVal.str "b"), ("G_doc_count", JVal.num 5)]] := by
  rfl

/-- Claim C4: a sibling bucket entry that is a scalar does not surface a
`MalformedAggregationNode` error as the spec claims; the pull that reaches it
hits the `expect` panic at lib.rs 204 (modelled as `Except.error bucketPanic`,
the process aborts rather than returning an error value to the caller). -/
theorem agg_malformed_bucket_panics_C4 : aggRows tC4 = Except.error bucketPanic := by
  rfl

/-- Claim C5: a response with no aggregations section does not give a row view
with zero rows as the spec claims; `ResponseOf::aggs` unwraps the `None` at
lib.rs 117 and panics (modelled as `Except.error unwrapNonePanic`). -/
theorem aggs_missing_section_panics_C5 :
    respNoAggs.aggs = Except.error unwrapNonePanic := by
  rfl

/-- Claim C9: an aggregations root that is not a JSON object does not produce
an `UnexpectedRootShape` construction error as the spec claims; `new` hits the
`expect` panic at lib.rs 146-147 (modelled as `Except.error rootPanic`, the
process aborts rather than propagating an error to the caller). -/
theorem agg_root_not_object_panics_C9 (root : JVal) (h : root.asObject = none) :
    AggregationIterator.new root = Except.error rootPanic := by
  unfold AggregationIterator.new
  rw [h]

theorem agg_root_not_object_panics_C9_witness :
    JVal.asObject (.num 1) = none ∧
    AggregationIterator.new (.num 1) = Except.error rootPanic :=
  ⟨rfl, agg_root_not_object_panics_C9 (.num 1) rfl⟩

/-- Claim C6: exhaustion is terminal.  When a call to `next` signals
no-more-rows, the resulting state has a cleared accumulator and an empty
stack, and `next` on that state signals no-more-rows again with the state
unchanged. -/
theorem agg_exhaustion_terminal_C6 (st st2 : AggregationIterator)
    (hn : next st = .ok (none, st2)) :
    st2.current_row = none ∧ st2.iter_stack = [] ∧ next st2 = .ok (none, st2) := by
  have h2 := next_done hn
  subst h2
  exact ⟨rfl, rfl, rfl⟩

theorem agg_exhaustion_terminal_C6_witness :
    next stEmpty = .ok (none, stEmpty) ∧ stEmpty.current_row = none ∧
    stEmpty.iter_stack = [] ∧ next stEmpty = .ok (none, stEmpty) :=
  ⟨rfl, agg_exhaustion_terminal_C6 stEmpty stEmpty rfl⟩

/-- Claim C10: top-level groups are consumed in reverse of the object's
key-iteration order.  (a) The row view of a root object equals the emission
over the reversed list of construction-time frames; (b) emission over a
reversed concatenation processes the later groups (`F2`) to completion before
any earlier group (`F1`), threading the accumulator across the boundary. -/
theorem agg_reverse_order_C10 :
    (∀ fs : JFields,
      aggRows (.obj fs) = (emitGroups [] ((topFrames fs).reverse)).map Prod.snd)
    ∧ (∀ (F1 F2 : List Frame) (acc : Row),
        emitGroups acc ((F1 ++ F2).reverse) = emitSeq (emitGroups acc F2.reverse) F1.reverse) := by
  constructor
  · intro fs
    have hnew : AggregationIterator.new (.obj fs) =
        .ok ⟨none, false, (topFrames fs).reverse⟩ := rfl
    unfold aggRows
    rw [hnew]
    show runRows ⟨none, false, (topFrames fs).reverse⟩ =
      (emitGroups [] ((topFrames fs).reverse)).map Prod.snd
    exact runRows_emit (stackW ((topFrames fs).reverse) + 1) _ (Nat.lt_succ_self _)
  · intro F1 F2 acc
    rw [List.reverse_append]
    exact emit_append (stackW F2.reverse + 1) F2.reverse (Nat.lt_succ_self _) acc F1.reverse

/-- Claim C8: construction creates exactly one frame per top-level key whose
value is an object with a "buckets" array (in iteration order, cursor on that
array), drops every other top-level entry, and a dropped entry contributes
nothing to the row view. -/
theorem agg_top_frames_C8 :
    (∀ fs : JFields,
      AggregationIterator.new (.obj fs) = .ok ⟨none, false, (topFrames fs).reverse⟩)
    ∧ (∀ (k : String) (c : JFields) (a : JList) (tl : JFields),
        getField c "buckets" = some (JVal.arr a) →
        topFrames (.cons k (.obj c) tl) = ⟨k, a⟩ :: topFrames tl)
    ∧ (∀ (k : String) (v : JVal) (tl : JFields), qualFrame v = none →
        topFrames (.cons k v tl) = topFrames tl)
    ∧ (∀ (fs1 fs2 : JFields) (k : String) (v : JVal), qualFrame v = none →
        aggRows (.obj (JFields.append fs1 (.cons k v fs2))) =
        aggRows (.obj (JFields.append fs1 fs2))) := by
  refine ⟨fun fs => rfl, ?_, ?_, ?_⟩
  · intro k c a tl hbk
    simp [topFrames, qualFrame, JVal.asObject, hbk, JVal.asArray]
  · intro k v tl hq
    simp [topFrames, hq]
  · intro fs1 fs2 k v hq
    have ht : topFrames (JFields.append fs1 (.cons k v fs2)) =
        topFrames (JFields.append fs1 fs2) := by
      rw [topFrames_append, topFrames_append]
      simp [topFrames, hq]
    have hnew1 : AggregationIterator.new (.obj (JFields.append fs1 (.cons k v fs2))) =
        .ok ⟨none, false, (topFrames (JFields.append fs1 (.cons k v fs2))).reverse⟩ := rfl
    have hnew2 : AggregationIterator.new (.obj (JFields.append fs1 fs2)) =
        .ok ⟨none, false, (topFrames (JFields.append fs1 fs2)).reverse⟩ := rfl
    unfold aggRows
    rw [hnew1, hnew2, ht]

/-- Claim C1: the traversal visits every leaf bucket path exactly once, in
depth-first, left-to-right order over sibling arrays.  Formalized as (a) the
row view equals `dfsRows`, the structural depth-first enumeration: by its
defining equations a sibling array is consumed head bucket first (left to
right), a leaf bucket contributes exactly the single row `row' :: …` at its
position, and a bucket with nested aggregations contributes exactly its
children's rows, all before any row of the remaining siblings — so each leaf
path contributes one row, exactly once, in DFS left-to-right order; and (b)
under well-formedness the traversal succeeds and the row count equals the
number of leaf bucket paths reachable from the construction-time frames. -/
theorem agg_leaf_rows_C1 (fs : JFields) (hwf : wfFields fs = true) :
    aggRows (.obj fs) = (dfsRows [] ((topFrames fs).reverse)).map Prod.snd
    ∧ ∃ rows, aggRows (.obj fs) = .ok rows ∧ rows.length = leafStack (topFrames fs) := by
  have hwS : wfStack ((topFrames fs).reverse) = true := by
    rw [wfStack_reverse]
    exact wf_topFrames fs hwf
  obtain ⟨a, rows, hE, hlen⟩ :=
    emit_count (stackW ((topFrames fs).reverse) + 1) ((topFrames fs).reverse)
      (Nat.lt_succ_self _) hwS []
  constructor
  · have hnew : AggregationIterator.new (.obj fs) =
        .ok ⟨none, false, (topFrames fs).reverse⟩ := rfl
    unfold aggRows
    rw [hnew]
    show runRows ⟨none, false, (topFrames fs).reverse⟩ =
      (dfsRows [] ((topFrames fs).reverse)).map Prod.snd
    rw [runRows_emit (stackW ((topFrames fs).reverse) + 1) _ (Nat.lt_succ_self _)]
    show (emitGroups [] ((topFrames fs).reverse)).map Prod.snd =
      (dfsRows [] ((topFrames fs).reverse)).map Prod.snd
    rw [emit_eq_dfs (stackW ((topFrames fs).reverse) + 1) _ (Nat.lt_succ_self _) []]
  refine ⟨rows, ?_, ?_⟩
  · have hnew : AggregationIterator.new (.obj fs) =
        .ok ⟨none, false, (topFrames fs).reverse⟩ := rfl
    unfold aggRows
    rw [hnew]
    show runRows ⟨none, false, (topFrames fs).reverse⟩ = .ok rows
    rw [runRows_emit (stackW ((topFrames fs).reverse) + 1) _ (Nat.lt_succ_self _)]
    show (emitGroups [] ((topFrames fs).reverse)).map Prod.snd = .ok rows
    rw [hE]
    rfl
  · rw [hlen, leafStack_reverse]

theorem agg_leaf_rows_C1_witness :
    wfFields fsTwo = true ∧
    (aggRows (.obj fsTwo) = (dfsRows [] ((topFrames fsTwo).reverse)).map Prod.snd
     ∧ ∃ rows, aggRows (.obj fsTwo) = .ok rows ∧ rows.length = leafStack (topFrames fsTwo)) :=
  ⟨rfl, agg_leaf_rows_C1 fsTwo rfl⟩

/-- Claim C3: the accumulator is never cleared between yielded rows.  After a
yield the accumulator still holds the yielded row, and every column present in
that row is present (carried over or overwritten, never dropped) in every row
the iterator subsequently yields — across nested levels and across distinct
top-level aggregations. -/
theorem agg_accumulator_never_cleared_C3 (st st2 : AggregationIterator) (r : Row)
    (hn : next st = .ok (some r, st2)) :
    st2.current_row = some r ∧
    (∀ (rows : List Row) (t : String), runRows st2 = .ok rows →
      (rowFind r t).isSome = true → ∀ ρ ∈ rows, (rowFind ρ t).isSome = true) := by
  refine ⟨(next_yield hn).2.1, ?_⟩
  intro rows t hrun hpres
  refine runRows_mono (stackW st2.iter_stack + 1) st2 (Nat.lt_succ_self _) hrun ?_ 
  rw [(next_yield hn).2.1]
  exact hpres

theorem agg_accumulator_never_cleared_C3_witness :
    next stTwo = .ok (some rowB, stTwo2) ∧
    stTwo2.current_row = some rowB ∧
    runRows stTwo2 = .ok rowsAfter ∧
    (rowFind rowB "B").isSome = true ∧
    (∀ ρ ∈ rowsAfter, (rowFind ρ "B").isSome = true) :=
  ⟨rfl, (agg_accumulator_never_cleared_C3 stTwo stTwo2 rowB rfl).1, rfl, rfl,
   (agg_accumulator_never_cleared_C3 stTwo stTwo2 rowB rfl).2 rowsAfter "B" rfl rfl⟩

/-- Claim C7: for a bucket field `(key, value)` whose value is an object `c`
without a "buckets" field (and whose name is not the literal `key` or
`doc_count`, which lib.rs 243-252 treats specially): a "value" field gives
column `key` with that value; each present recognized stat field `s` gives
column `key_s` with its value; a "std_deviation_bounds" object with
"upper"/"lower" gives exactly the two columns
`key_std_deviation_bounds_upper`/`_lower`; no column outside `writtenNames`
changes; and any column present in the accumulator is present in every row
subsequently yielded. -/
theorem agg_metric_columns_C7 (active key : String) (value : JVal) (c : JFields)
    (row row' : Row) (fr : Option Frame) (hb : Bool)
    (hobj : value.asObject = some c)
    (hnb : getField c "buckets" = none)
    (hkk : ¬(key = "key")) (hkd : ¬(key = "doc_count"))
    (hpf : processField active key value row = .ok (row', fr, hb)) :
    (∀ v, getField c "value" = some v → rowFind row' key = some v)
    ∧ (getField c "value" = none →
        ∀ s ∈ statNames, ∀ w, getField c s = some w →
          rowFind row' (key ++ "_" ++ s) = some w)
    ∧ (getField c "value" = none →
        ∀ sdb cv u l, getField c "std_deviation_bounds" = some sdb →
          sdb.asObject = some cv → getField cv "upper" = some u →
          getField cv "lower" = some l →
          rowFind row' (key ++ "_std_deviation_bounds_upper") = some u ∧
          rowFind row' (key ++ "_std_deviation_bounds_lower") = some l)
    ∧ (∀ t, (∀ n ∈ writtenNames active key, n ≠ t) → rowFind row' t = rowFind row t)
    ∧ (∀ (st : AggregationIterator) (rows : List Row) (t : String),
        (rowFind (st.current_row.getD []) t).isSome = true →
        runRows st = .ok rows → ∀ ρ ∈ rows, (rowFind ρ t).isSome = true) := by
  refine ⟨?_, ?_, ?_, ?_, ?_⟩
  · intro v hv
    exact processField_value hobj hnb hv hpf
  · intro hnv s hsmem w hw
    exact processField_stat hobj hnb hnv hkk hkd hsmem hw hpf
  · intro hnv sdb cv u l hsdb hcv hu hl
    exact processField_bounds hobj hnb hnv hkk hkd hsdb hcv hu hl hpf
  · intro t ht
    exact processField_frame hpf ht
  · intro st rows t hpres hrun
    exact runRows_mono (stackW st.iter_stack + 1) st (Nat.lt_succ_self _) hrun hpres

theorem agg_metric_columns_C7_witness :
    processField "G" "price_stats" valueStats [] = .ok (rowStats, none, false) ∧
    rowFind rowStats ("price_stats" ++ "_" ++ "avg") = some (JVal.num (85/2)) ∧
    rowFind rowStats ("price_stats" ++ "_std_deviation_bounds_upper") = some (JVal.num 9) ∧
    rowFind rowStats ("price_stats" ++ "_std_deviation_bounds_lower") = some (JVal.num 1) :=
  ⟨rfl,
   (agg_metric_columns_C7 "G" "price_stats" valueStats cStats [] rowStats none false
      rfl rfl (by decide) (by decide) rfl).2.1 rfl "avg" (by simp [statNames]) _ rfl,
   ((agg_metric_columns_C7 "G" "price_stats" valueStats cStats [] rowStats none false
      rfl rfl (by decide) (by decide) rfl).2.2.1 rfl _ _ _ _ rfl rfl rfl rfl).1,
   ((agg_metric_columns_C7 "G" "price_stats" valueStats cStats [] rowStats none false
      rfl rfl (by decide) (by decide) rfl).2.2.1 rfl _ _ _ _ rfl rfl rfl rfl).2⟩
